import Mathlib

/-!
# Verification of the Medicare Advantage data-processing helpers

A shallow embedding of `Data/functions.py` (checkpoint copy
`Data/.ipynb_checkpoints/functions-checkpoint.py`): the premium reconciler
`mapd_clean_merge`, the composite plan/enrollment loader `load_month`, and the
service-area `partial`-column coercion from `read_service_area`.

Tables are lists of records.  A pandas cell is modelled by `Cell`: missing
(`NaN`/`NA`), a string, a numeric value, or a boolean.  Numeric cells carry a
decimal number `Dec` (mantissa/exponent, kept in canonical form by the
parser); `pd.to_numeric(..., errors="coerce")` is modelled for plain decimal
literals (optional sign, digits, optional fraction), which covers every value
the premium pipeline feeds it after currency stripping.  `astype("string")`
renders a numeric cell back to its decimal literal.

Key fields (`contractid`, `state`, `county`) are modelled as present strings
and `planid` as an integer-or-missing value, matching the dtypes the source
requests from `pd.read_csv` / `astype("Int64")`; `pd.to_numeric` followed by
`astype("Int64")` is the identity on such a column.

Pandas semantics followed throughout: `sort_values` orders ascending with
missing keys last; `groupby(...)` with the default `dropna=True` excludes
rows whose group key is missing, so a group-wise `ffill` leaves those rows'
filled columns as `NaN`; `drop_duplicates(keep='first')` retains the first
occurrence of each key; `merge` matches keys by equality and, for
`how='outer'`, keeps unmatched rows of either side with `NaN` for the other
side's columns.
-/

namespace MAData

/- ### Characters: models of Python `str.upper` / `str.strip` (ASCII) -/

/-- Python whitespace stripped by `str.strip`, by code point. -/
def isWsCh (c : Char) : Bool :=
  c.toNat = 32 || c.toNat = 9 || c.toNat = 10 || c.toNat = 13 || c.toNat = 11 || c.toNat = 12

/-- ASCII upper-casing of one character (`str.upper`). -/
def upperCh (c : Char) : Char :=
  if 97 ≤ c.toNat ∧ c.toNat ≤ 122 then Char.ofNat (c.toNat - 32) else c

/-- Model of `.str.upper()` on one string. -/
def strUpper (s : String) : String := ⟨s.data.map upperCh⟩

/-- Drop leading whitespace of a character list. -/
def stripFront (l : List Char) : List Char := l.dropWhile isWsCh

/-- Drop trailing whitespace of a character list. -/
def stripBack (l : List Char) : List Char := (stripFront l.reverse).reverse

/-- Model of `.str.strip()` on one string: drop leading and trailing whitespace. -/
def strStrip (s : String) : String := ⟨stripBack (stripFront s.data)⟩

/-- Model of `.str.replace(r"[\$,]", "", regex=True)`: delete every `$` and `,`. -/
def stripCurrencyChars (s : String) : String :=
  ⟨s.data.filter (fun c => ¬ (c = '$' ∨ c = ','))⟩

/- ### Decimal numbers: the values of numeric cells -/

/-- A decimal number `m / 10 ^ e`.  The parser keeps it canonical
(`e = 0` or `m` not divisible by 10). -/
structure Dec where
  m : Int
  e : Nat
deriving DecidableEq, Repr

/-- A `Dec` in the canonical form the parser produces. -/
def Dec.canonical (d : Dec) : Prop := d.e = 0 ∨ d.m % 10 ≠ 0

/-- The rational value of a decimal. -/
def Dec.toRat (d : Dec) : ℚ := d.m / 10 ^ d.e

def isDigitCh (c : Char) : Bool := 48 ≤ c.toNat && c.toNat ≤ 57

def digitVal (c : Char) : Nat := c.toNat - 48

/-- Value of a digit string, most significant first. -/
def digitsVal (l : List Char) : Nat := l.foldl (fun a c => a * 10 + digitVal c) 0

/-- Strip factors of ten from the mantissa into the exponent. -/
def canonDec (m : Int) : Nat → Dec
  | 0 => ⟨m, 0⟩
  | e + 1 => if m % 10 = 0 then canonDec (m / 10) e else ⟨m, e + 1⟩

/-- Parse an unsigned decimal literal: digits, optionally `.` and digits
(at least one digit overall), as accepted by `float`/`pd.to_numeric`. -/
def parseUnsigned (l : List Char) : Option Dec :=
  match l.dropWhile isDigitCh with
  | [] =>
    if l.takeWhile isDigitCh = [] then none
    else some (canonDec (digitsVal (l.takeWhile isDigitCh)) 0)
  | '.' :: fp =>
    if fp.all isDigitCh ∧ (l.takeWhile isDigitCh ≠ [] ∨ fp ≠ []) then
      some (canonDec (digitsVal (l.takeWhile isDigitCh ++ fp)) fp.length)
    else none
  | _ => none

/-- Parse a signed decimal literal (`pd.to_numeric(..., errors="coerce")` on
one already-stripped string; `none` is the coerce-to-`NaN` outcome). -/
def parseNum (s : String) : Option Dec :=
  match s.data with
  | '-' :: rest => (parseUnsigned rest).map (fun d => ⟨-d.m, d.e⟩)
  | '+' :: rest => parseUnsigned rest
  | l => parseUnsigned l

def digitCh (n : Nat) : Char := Char.ofNat (48 + n)

/-- Decimal digits of a natural number, most significant first. -/
def natDigits (n : Nat) : List Char :=
  if _h : n < 10 then [digitCh n]
  else natDigits (n / 10) ++ [digitCh (n % 10)]
decreasing_by exact Nat.div_lt_self (by omega) (by omega)

/-- Digits of `n` left-padded with zeros to width `e`. -/
def padDigits (e : Nat) (n : Nat) : List Char :=
  List.replicate (e - (natDigits n).length) '0' ++ natDigits n

/-- Render a decimal as the literal `astype("string")` produces for it. -/
def renderDec (d : Dec) : String :=
  let n := d.m.natAbs
  let core : List Char :=
    if d.e = 0 then natDigits n
    else natDigits (n / 10 ^ d.e) ++ '.' :: padDigits d.e (n % 10 ^ d.e)
  ⟨if d.m < 0 then '-' :: core else core⟩

/- ### Cells -/

/-- One pandas cell: missing, string, numeric, or boolean. -/
inductive Cell where
  | na
  | str (s : String)
  | num (d : Dec)
  | bool (b : Bool)
deriving DecidableEq, Repr

/-- Model of `.astype("string")` on one cell. -/
def cellAstypeString : Cell → Cell
  | .na => .na
  | .str s => .str s
  | .num d => .str (renderDec d)
  | .bool b => .str (if b then "True" else "False")

/-- Model of `.str.replace(r"[\$,]", "", regex=True).str.strip()` on one cell. -/
def cellStripCurrency : Cell → Cell
  | .str s => .str (strStrip (stripCurrencyChars s))
  | c => c

/-- Model of `pd.to_numeric(..., errors="coerce")` on one cell. -/
def cellToNumeric : Cell → Cell
  | .na => .na
  | .num d => .num d
  | .bool b => .num ⟨if b then 1 else 0, 0⟩
  | .str s =>
    match parseNum s with
    | some d => .num d
    | none => .na

/-- The premium-column cleaning applied by `mapd_clean_merge`:
`astype("string")`, strip `$`/`,` and whitespace, then coerce to numeric. -/
def cleanCurrencyCell (c : Cell) : Cell :=
  cellToNumeric (cellStripCurrency (cellAstypeString c))

/- ### Rows and keys of the premium reconciler -/

/-- The join/group key tuple `['contractid', 'planid', 'state', 'county']`. -/
abbrev Key := String × Option Int × String × String

/-- A row of the MA landscape table, restricted (as the source immediately
does) to the columns `contractid, planid, state, county, premium`. -/
structure MARow where
  contractid : String
  planid : Option Int
  state : String
  county : String
  premium : Cell
deriving DecidableEq, Repr

def MARow.key (r : MARow) : Key := (r.contractid, r.planid, r.state, r.county)

/-- A row of the MA-PD landscape table, restricted to the columns the source
selects: the key tuple plus the five `fill_cols`. -/
structure MAPDRow where
  contractid : String
  planid : Option Int
  state : String
  county : String
  premium_partc : Cell
  premium_partd_basic : Cell
  premium_partd_supp : Cell
  premium_partd_total : Cell
  partd_deductible : Cell
deriving DecidableEq, Repr

def MAPDRow.key (r : MAPDRow) : Key := (r.contractid, r.planid, r.state, r.county)

/- ### Ordering used by `sort_values` -/

/-- Lexicographic order on character lists (Python string comparison). -/
def listLe : List Char → List Char → Bool
  | [], _ => true
  | _ :: _, [] => false
  | a :: as, b :: bs => if a.toNat < b.toNat then true
      else if b.toNat < a.toNat then false else listLe as bs

def strLe (a b : String) : Bool := listLe a.data b.data

/-- Order on nullable `planid`: `sort_values` places missing values last. -/
def pidLe : Option Int → Option Int → Bool
  | _, none => true
  | none, some _ => false
  | some a, some b => a ≤ b

/-- Lexicographic order on the key tuple, as
`sort_values(['contractid', 'planid', 'state', 'county'])` orders rows. -/
def keyLe : Key → Key → Bool
  | (c₁, p₁, s₁, t₁), (c₂, p₂, s₂, t₂) =>
    if c₁ = c₂ then
      if p₁ = p₂ then
        if s₁ = s₂ then strLe t₁ t₂ else strLe s₁ s₂
      else pidLe p₁ p₂
    else strLe c₁ c₂

/-- Insert a row into a key-sorted list, before any row of equal key that is
already there (so the overall sort is stable). -/
def insertByKey {α : Type} (key : α → Key) (r : α) : List α → List α
  | [] => [r]
  | x :: xs => if keyLe (key r) (key x) then r :: x :: xs else x :: insertByKey key r xs

/-- Model of `sort_values(['contractid', 'planid', 'state', 'county'])`. -/
def sortByKey {α : Type} (key : α → Key) : List α → List α
  | [] => []
  | r :: rs => insertByKey key r (sortByKey key rs)

/- ### Group-wise forward fill (`groupby(key)[cols].ffill()`) -/

/-- Association lookup with decidable key equality. -/
def lookupKey {V : Type} (k : Key) : List (Key × V) → Option V
  | [] => none
  | (k', v) :: rest => if k' = k then some v else lookupKey k rest

section GroupFfill

variable {α V : Type} (key : α → Key) (getv : α → V) (setv : α → V → α)
variable (fill : V → V → V) (vna : V)

/-- One pass of `groupby([key])[cols].ffill()`.  The carry maps each key seen
so far to the running filled values of its group.  A row whose `planid` is
missing has a missing group key; with the default `dropna=True` pandas
excludes it from every group, and the group-wise fill leaves its filled
columns as `NaN`. -/
def ffillGo : List (Key × V) → List α → List α
  | _, [] => []
  | carry, r :: rs =>
    match (key r).2.1 with
    | none => setv r vna :: ffillGo carry rs
    | some _ =>
      setv r (fill ((lookupKey (key r) carry).getD vna) (getv r)) ::
        ffillGo ((key r, fill ((lookupKey (key r) carry).getD vna) (getv r)) :: carry) rs

def groupFfill (l : List α) : List α := ffillGo key getv setv fill vna [] l

end GroupFfill

/-- Forward-fill one cell from the carried value: keep the cell unless it is
missing. -/
def fillCell (carry c : Cell) : Cell := if c = Cell.na then carry else c

/-- The running value of a forward fill over a list of cells. -/
def ffillVal (init : Cell) (cs : List Cell) : Cell := cs.foldl fillCell init

/-- Model of `ma_data.groupby([...])['premium'].ffill()`. -/
def groupFfillMA : List MARow → List MARow :=
  groupFfill MARow.key MARow.premium (fun r v => { r with premium := v }) fillCell Cell.na

/-- The five `fill_cols` of the MA-PD table, as one record. -/
structure FillVals where
  partc : Cell
  pdbasic : Cell
  pdsupp : Cell
  pdtotal : Cell
  deduct : Cell
deriving DecidableEq, Repr

def FillVals.na : FillVals := ⟨Cell.na, Cell.na, Cell.na, Cell.na, Cell.na⟩

def MAPDRow.fills (r : MAPDRow) : FillVals :=
  ⟨r.premium_partc, r.premium_partd_basic, r.premium_partd_supp,
    r.premium_partd_total, r.partd_deductible⟩

def MAPDRow.setFills (r : MAPDRow) (v : FillVals) : MAPDRow :=
  { r with premium_partc := v.partc, premium_partd_basic := v.pdbasic,
           premium_partd_supp := v.pdsupp, premium_partd_total := v.pdtotal,
           partd_deductible := v.deduct }

def fillVals (carry c : FillVals) : FillVals :=
  ⟨fillCell carry.partc c.partc, fillCell carry.pdbasic c.pdbasic,
    fillCell carry.pdsupp c.pdsupp, fillCell carry.pdtotal c.pdtotal,
    fillCell carry.deduct c.deduct⟩

/-- Model of `mapd_data.groupby([...])[fill_cols].ffill()`. -/
def groupFfillMAPD : List MAPDRow → List MAPDRow :=
  groupFfill MAPDRow.key MAPDRow.fills MAPDRow.setFills fillVals FillVals.na

/- ### `drop_duplicates(subset=key, keep='first')` -/

def dropDupAux {α κ : Type} [DecidableEq κ] (key : α → κ) : List κ → List α → List α
  | _, [] => []
  | seen, r :: rs =>
    if key r ∈ seen then dropDupAux key seen rs
    else r :: dropDupAux key (key r :: seen) rs

/-- Model of `drop_duplicates(subset=key, keep='first')`: keep the first occurrence of
each key, drop every later one. -/
def drop_duplicates {α κ : Type} [DecidableEq κ] (key : α → κ) (l : List α) : List α :=
  dropDupAux key [] l

/- ### The premium reconciler `mapd_clean_merge` -/

/-- The per-row normalization of the MA table: upper-case and strip
`contractid`, strip `state` and `county`, currency-clean `premium`
(`planid` is coerced with `pd.to_numeric(...).astype("Int64")`, the identity
on an integer-or-missing column). -/
def normMARow (r : MARow) : MARow :=
  { r with contractid := strStrip (strUpper r.contractid),
           state := strStrip r.state,
           county := strStrip r.county,
           premium := cleanCurrencyCell r.premium }

/-- The `for c in fill_cols` loop: currency-clean the five premium columns of
an MA-PD row.  In the source this loop runs before `mapd_data` is rebound to
a copy, so it updates the caller's table in place (see `mapdArgAfterCall`). -/
def cleanFillCols (r : MAPDRow) : MAPDRow :=
  { r with premium_partc := cleanCurrencyCell r.premium_partc,
           premium_partd_basic := cleanCurrencyCell r.premium_partd_basic,
           premium_partd_supp := cleanCurrencyCell r.premium_partd_supp,
           premium_partd_total := cleanCurrencyCell r.premium_partd_total,
           partd_deductible := cleanCurrencyCell r.partd_deductible }

/-- Steps 1–3 of the reconciler on the MA table: select columns and copy,
normalize, sort by the key tuple, group-wise forward fill of `premium`, drop
duplicate keys keeping the first post-sort row. -/
def cleanMA (ma_data : List MARow) : List MARow :=
  drop_duplicates MARow.key (groupFfillMA (sortByKey MARow.key (ma_data.map normMARow)))

/-- Steps 1–3 of the reconciler on the MA-PD table: currency-clean the
`fill_cols`, select columns and copy, coerce `planid` (identity here), sort,
group-wise forward fill of the `fill_cols`, drop duplicate keys. -/
def cleanMAPD (mapd_data : List MAPDRow) : List MAPDRow :=
  drop_duplicates MAPDRow.key (groupFfillMAPD (sortByKey MAPDRow.key (mapd_data.map cleanFillCols)))

/-- A row of the merged output table `plan_premiums`. -/
structure PremiumRow where
  contractid : String
  planid : Option Int
  state : String
  county : String
  premium : Cell
  premium_partc : Cell
  premium_partd_basic : Cell
  premium_partd_supp : Cell
  premium_partd_total : Cell
  partd_deductible : Cell
  year : Int
deriving DecidableEq, Repr

def PremiumRow.key (r : PremiumRow) : Key := (r.contractid, r.planid, r.state, r.county)

/-- A merge match: one MA row and one MA-PD row with equal keys. -/
def combineRow (a : MARow) (b : MAPDRow) (y : Int) : PremiumRow :=
  ⟨a.contractid, a.planid, a.state, a.county, a.premium,
    b.premium_partc, b.premium_partd_basic, b.premium_partd_supp,
    b.premium_partd_total, b.partd_deductible, y⟩

/-- An MA row with no MA-PD match: the MA-PD columns are `NaN`. -/
def leftOnlyRow (a : MARow) (y : Int) : PremiumRow :=
  ⟨a.contractid, a.planid, a.state, a.county, a.premium,
    Cell.na, Cell.na, Cell.na, Cell.na, Cell.na, y⟩

/-- An MA-PD row with no MA match: the MA `premium` column is `NaN`. -/
def rightOnlyRow (b : MAPDRow) (y : Int) : PremiumRow :=
  ⟨b.contractid, b.planid, b.state, b.county, Cell.na,
    b.premium_partc, b.premium_partd_basic, b.premium_partd_supp,
    b.premium_partd_total, b.partd_deductible, y⟩

/-- Model of `ma_data.merge(mapd_data, on=key, how='outer')` followed by
`plan_premiums['year'] = y`: every matching pair of rows, MA rows without a
match with `NaN` MA-PD columns, then MA-PD rows without a match with a `NaN`
`premium` column. -/
def outerMerge (ma : List MARow) (mapd : List MAPDRow) (y : Int) : List PremiumRow :=
  (ma.map (fun a =>
    match mapd.filter (fun b => decide (b.key = a.key)) with
    | [] => [leftOnlyRow a y]
    | ms => ms.map (fun b => combineRow a b y))).flatten
  ++ (mapd.filter (fun b => ¬ ma.any (fun a => decide (a.key = b.key)))).map
      (fun b => rightOnlyRow b y)

/-- The premium reconciler `mapd_clean_merge(ma_data, mapd_data, y)`. -/
def mapd_clean_merge (ma_data : List MARow) (mapd_data : List MAPDRow) (y : Int) :
    List PremiumRow :=
  outerMerge (cleanMA ma_data) (cleanMAPD mapd_data) y

/-- What the caller's `mapd_data` table holds after `mapd_clean_merge`
returns: the `for c in fill_cols` loop reassigns the five premium columns of
`mapd_data` before the `# Tidy MA-PD data` step rebinds `mapd_data` to a
copy, so those assignments land in the caller's table.  (`ma_data` is rebound
to a copy on the first line, so the caller's MA table is left untouched.) -/
def mapdArgAfterCall (mapd_data : List MAPDRow) : List MAPDRow :=
  mapd_data.map cleanFillCols

/- ### The reconciler with both forward-fill steps removed (for C10) -/

/-- Variant of `cleanMA` with the group-wise forward-fill step deleted. -/
def cleanMANoFill (ma_data : List MARow) : List MARow :=
  drop_duplicates MARow.key (sortByKey MARow.key (ma_data.map normMARow))

/-- Variant of `cleanMAPD` with the group-wise forward-fill step deleted. -/
def cleanMAPDNoFill (mapd_data : List MAPDRow) : List MAPDRow :=
  drop_duplicates MAPDRow.key (sortByKey MAPDRow.key (mapd_data.map cleanFillCols))

/-- Variant of `mapd_clean_merge` with both group-wise forward-fill steps deleted. -/
def mapd_clean_merge_nofill (ma_data : List MARow) (mapd_data : List MAPDRow) (y : Int) :
    List PremiumRow :=
  outerMerge (cleanMANoFill ma_data) (cleanMAPDNoFill mapd_data) y

/- ### The service-area `partial` column (`read_service_area`, line 59) -/

/-- Model of `df['partial'].map({'TRUE': True, 'FALSE': False, True: True,
False: False})` on one cell: `Series.map` with a dict sends every value that
is not a key of the dict — including `NaN` — to `NaN`. -/
def coercePartialCell : Cell → Cell
  | .str s => if s = "TRUE" then .bool true else if s = "FALSE" then .bool false else .na
  | .bool b => .bool b
  | _ => .na

/-- The `partial` column transform of `read_service_area`. -/
def readServiceAreaPartialCol (col : List Cell) : List Cell :=
  col.map coercePartialCell

/- ### The composite loader `load_month` -/

/-- A row of `read_contract`: `contractid`/`planid` plus the ten descriptive
columns, all nullable strings except the key fields. -/
structure ContractRow where
  contractid : String
  planid : Option Int
  org_type : Option String
  plan_type : Option String
  partd : Option String
  snp : Option String
  eghp : Option String
  org_name : Option String
  org_marketing_name : Option String
  plan_name : Option String
  parent_org : Option String
  contract_date : Option String
deriving DecidableEq, Repr

/-- A row of `read_enroll`: the key pair plus geography and the nullable
enrollment count (`*` is read as missing). -/
structure EnrollRow where
  contractid : String
  planid : Option Int
  ssa : Option Dec
  fips : Option Dec
  state : Option String
  county : Option String
  enrollment : Option Dec
deriving DecidableEq, Repr

def EnrollRow.key (e : EnrollRow) : String × Option Int := (e.contractid, e.planid)

/-- A row of the table `load_month` returns. -/
structure MonthRow where
  contractid : String
  planid : Option Int
  org_type : Option String
  plan_type : Option String
  partd : Option String
  snp : Option String
  eghp : Option String
  org_name : Option String
  org_marketing_name : Option String
  plan_name : Option String
  parent_org : Option String
  contract_date : Option String
  ssa : Option Dec
  fips : Option Dec
  state : Option String
  county : Option String
  enrollment : Option Dec
  month : Int
  year : Int
deriving DecidableEq, Repr

/-- A contract row merged with one matching enrollment row. -/
def monthRowOf (c : ContractRow) (e : EnrollRow) (m y : Int) : MonthRow :=
  ⟨c.contractid, c.planid, c.org_type, c.plan_type, c.partd, c.snp, c.eghp,
    c.org_name, c.org_marketing_name, c.plan_name, c.parent_org, c.contract_date,
    e.ssa, e.fips, e.state, e.county, e.enrollment, m, y⟩

/-- A contract row with no matching enrollment row: the enrollment columns
are missing (`how='left'`). -/
def monthRowNoEnroll (c : ContractRow) (m y : Int) : MonthRow :=
  ⟨c.contractid, c.planid, c.org_type, c.plan_type, c.partd, c.snp, c.eghp,
    c.org_name, c.org_marketing_name, c.plan_name, c.parent_org, c.contract_date,
    none, none, none, none, none, m, y⟩

/-- Model of `load_month(m, y)` on already-parsed input tables: deduplicate the
contract table on `['contractid', 'planid']` keeping the first row, left-join
the enrollment table on that pair, stamp `month = int(m)` and `year = y`.
(The month is passed here as its already-parsed integer value.) -/
def load_month (contract : List ContractRow) (enroll : List EnrollRow) (m y : Int) :
    List MonthRow :=
  ((drop_duplicates (fun c : ContractRow => (c.contractid, c.planid)) contract).map
    (fun c =>
      match enroll.filter (fun e => decide (e.key = (c.contractid, c.planid))) with
      | [] => [monthRowNoEnroll c m y]
      | ms => ms.map (fun e => monthRowOf c e m y))).flatten

/-! ## Lemmas: characters and strings -/

lemma toNat_ofNat_valid {n : Nat} (h : n < 55296) : (Char.ofNat n).toNat = n := by
  simp [Char.ofNat, Nat.isValidChar, h, Char.ofNatAux, Char.toNat]
  rfl

lemma upperCh_toNat (c : Char) :
    (upperCh c).toNat = if 97 ≤ c.toNat ∧ c.toNat ≤ 122 then c.toNat - 32 else c.toNat := by
  unfold upperCh
  split
  · exact toNat_ofNat_valid (by omega)
  · rfl

lemma upperCh_eq_self (c : Char) (h : ¬ (97 ≤ c.toNat ∧ c.toNat ≤ 122)) : upperCh c = c := by
  unfold upperCh
  rw [if_neg h]

lemma upperCh_idem (c : Char) : upperCh (upperCh c) = upperCh c := by
  by_cases h : 97 ≤ c.toNat ∧ c.toNat ≤ 122
  · apply upperCh_eq_self
    rw [upperCh_toNat c, if_pos h]
    omega
  · simp only [upperCh_eq_self c h]

lemma isWsCh_iff (c : Char) :
    isWsCh c = true ↔
      c.toNat = 32 ∨ c.toNat = 9 ∨ c.toNat = 10 ∨ c.toNat = 13 ∨ c.toNat = 11 ∨ c.toNat = 12 := by
  simp [isWsCh, or_assoc]

lemma isWsCh_upperCh (c : Char) : isWsCh (upperCh c) = isWsCh c := by
  rw [Bool.eq_iff_iff, isWsCh_iff, isWsCh_iff, upperCh_toNat]
  split
  · omega
  · exact Iff.rfl

lemma map_upperCh_idem (l : List Char) : (l.map upperCh).map upperCh = l.map upperCh := by
  rw [List.map_map]
  exact List.map_congr_left (fun a _ => upperCh_idem a)

lemma dropWhile_congr_fun {α : Type} {p q : α → Bool} (h : ∀ a, p a = q a) :
    ∀ l : List α, l.dropWhile p = l.dropWhile q
  | [] => rfl
  | a :: l => by
    rw [List.dropWhile_cons, List.dropWhile_cons, h a]
    split
    · exact dropWhile_congr_fun h l
    · rfl

lemma stripFront_map_upperCh (l : List Char) :
    stripFront (l.map upperCh) = (stripFront l).map upperCh := by
  unfold stripFront
  rw [List.dropWhile_map]
  exact congrArg _ (dropWhile_congr_fun (fun a => by simp [Function.comp, isWsCh_upperCh]) l)

lemma stripBack_map_upperCh (l : List Char) :
    stripBack (l.map upperCh) = (stripBack l).map upperCh := by
  unfold stripBack
  rw [← List.map_reverse, stripFront_map_upperCh, List.map_reverse]

lemma stripFront_head (l : List Char) {c : Char} (h : (stripFront l).head? = some c) :
    isWsCh c = false := by
  induction l with
  | nil => simp [stripFront] at h
  | cons a l ih =>
    rw [stripFront, List.dropWhile_cons] at h
    split at h
    · exact ih h
    · next ha =>
      simp only [List.head?_cons, Option.some_inj] at h
      subst h
      simpa using ha

lemma stripFront_of_head (l : List Char) (h : ∀ c, l.head? = some c → isWsCh c = false) :
    stripFront l = l := by
  cases l with
  | nil => rfl
  | cons a l => simp [stripFront, List.dropWhile_cons, h a rfl]

lemma stripFront_idem (l : List Char) : stripFront (stripFront l) = stripFront l :=
  stripFront_of_head _ (fun _ h => stripFront_head l h)

lemma stripBack_idem (l : List Char) : stripBack (stripBack l) = stripBack l := by
  unfold stripBack
  rw [List.reverse_reverse, stripFront_idem]

lemma stripBack_head (l : List Char) {c : Char} (h : (stripBack l).head? = some c) :
    ∃ c', l.head? = some c' ∧ (c' = c ∨ isWsCh c' = true) := by
  unfold stripBack at h
  rw [List.head?_reverse] at h
  cases l with
  | nil => simp [stripFront] at h
  | cons a l =>
    refine ⟨a, rfl, ?_⟩
    by_cases hws : isWsCh a
    · exact Or.inr hws
    · left
      obtain ⟨t, ht⟩ := List.dropWhile_suffix (l := (a :: l).reverse) isWsCh
      rcases List.eq_nil_or_concat (stripFront ((a :: l).reverse)) with hnil | ⟨ys, y, hy⟩
      · rw [hnil] at h
        simp at h
      · have hdw : List.dropWhile isWsCh (a :: l).reverse = ys ++ [y] := by
          rw [← List.concat_eq_append, ← hy]
          rfl
        have hyc : y = c := by
          rw [hy, List.concat_eq_append, List.getLast?_concat, Option.some_inj] at h
          exact h
        have hay : a = y := by
          have h2 : ((a :: l).reverse).getLast? = some y := by
            rw [← ht, hdw, ← List.append_assoc, List.getLast?_concat]
          rw [List.getLast?_reverse, List.head?_cons, Option.some_inj] at h2
          exact h2
        exact hay.trans hyc

lemma stripFront_stripBack_of_head (l : List Char)
    (h : ∀ c, l.head? = some c → isWsCh c = false) :
    stripFront (stripBack l) = stripBack l := by
  apply stripFront_of_head
  intro c hc
  obtain ⟨c', hc', hor⟩ := stripBack_head l hc
  rcases hor with h1 | hws
  · exact h1 ▸ h c' hc'
  · rw [h c' hc'] at hws
    exact absurd hws (by simp)

lemma strip_idem (l : List Char) :
    stripBack (stripFront (stripBack (stripFront l))) = stripBack (stripFront l) := by
  rw [stripFront_stripBack_of_head (stripFront l) (fun _ h => stripFront_head l h),
    stripBack_idem]

lemma strStrip_strStrip (s : String) : strStrip (strStrip s) = strStrip s :=
  congrArg String.mk (strip_idem s.data)

lemma strStrip_strUpper (s : String) : strStrip (strUpper s) = strUpper (strStrip s) := by
  unfold strStrip strUpper
  exact congrArg String.mk (by rw [stripFront_map_upperCh, stripBack_map_upperCh])

lemma strUpper_strUpper (s : String) : strUpper (strUpper s) = strUpper s :=
  congrArg String.mk (map_upperCh_idem s.data)

/-- The `contractid` normalization of the MA table is idempotent. -/
lemma normContract_idem (s : String) :
    strStrip (strUpper (strStrip (strUpper s))) = strStrip (strUpper s) := by
  rw [← strStrip_strUpper, strUpper_strUpper, strStrip_strStrip]

/-! ## Lemmas: digits, parsing and rendering of decimals -/

lemma digitCh_toNat {n : Nat} (h : n < 10) : (digitCh n).toNat = 48 + n :=
  toNat_ofNat_valid (by omega)

lemma isDigitCh_digitCh {n : Nat} (h : n < 10) : isDigitCh (digitCh n) = true := by
  simp only [isDigitCh, digitCh_toNat h, Bool.and_eq_true, decide_eq_true_eq]
  omega

lemma digitVal_digitCh {n : Nat} (h : n < 10) : digitVal (digitCh n) = n := by
  simp [digitVal, digitCh_toNat h]

lemma natDigits_ne_nil (n : Nat) : natDigits n ≠ [] := by
  rw [natDigits]
  split <;> simp

lemma natDigits_all_digit (n : Nat) : ∀ c ∈ natDigits n, isDigitCh c = true := by
  induction n using Nat.strong_induction_on with
  | _ n ih =>
    rw [natDigits]
    split
    · next h => simpa using isDigitCh_digitCh h
    · next h =>
      intro c hc
      rcases List.mem_append.mp hc with h1 | h2
      · exact ih (n / 10) (Nat.div_lt_self (by omega) (by omega)) c h1
      · simp only [List.mem_singleton] at h2
        subst h2
        exact isDigitCh_digitCh (Nat.mod_lt n (by omega))

lemma digitsVal_go (x : Nat) (l : List Char) :
    l.foldl (fun a c => a * 10 + digitVal c) x = x * 10 ^ l.length + digitsVal l := by
  induction l generalizing x with
  | nil => simp [digitsVal]
  | cons c l ih =>
    rw [List.foldl_cons]
    rw [ih (x * 10 + digitVal c)]
    have : digitsVal (c :: l) = digitVal c * 10 ^ l.length + digitsVal l := by
      rw [digitsVal, List.foldl_cons]
      simpa using ih (digitVal c)
    rw [this]
    simp [List.length_cons]
    ring

lemma digitsVal_append (a b : List Char) :
    digitsVal (a ++ b) = digitsVal a * 10 ^ b.length + digitsVal b := by
  rw [digitsVal, List.foldl_append, ← digitsVal, ← digitsVal_go]

lemma digitsVal_replicate_zero (k : Nat) (l : List Char) :
    digitsVal (List.replicate k '0' ++ l) = digitsVal l := by
  rw [digitsVal_append]
  have : digitsVal (List.replicate k '0') = 0 := by
    induction k with
    | zero => rfl
    | succ k ih =>
      rw [List.replicate_succ, digitsVal, List.foldl_cons]
      have : digitVal '0' = 0 := rfl
      rw [this]
      simpa [digitsVal] using ih
  rw [this]
  simp

lemma natDigits_val (n : Nat) : digitsVal (natDigits n) = n := by
  induction n using Nat.strong_induction_on with
  | _ n ih =>
    rw [natDigits]
    split
    · next h => simp [digitsVal, digitVal_digitCh h]
    · next h =>
      rw [digitsVal_append, ih (n / 10) (Nat.div_lt_self (by omega) (by omega))]
      have : digitsVal [digitCh (n % 10)] = n % 10 := by
        simp [digitsVal, digitVal_digitCh (Nat.mod_lt n (by omega))]
      rw [this]
      simp only [List.length_singleton, pow_one]
      omega

lemma natDigits_len_le {n e : Nat} (he : 1 ≤ e) (h : n < 10 ^ e) :
    (natDigits n).length ≤ e := by
  induction e generalizing n with
  | zero => omega
  | succ e ih =>
    rw [natDigits]
    split
    · simp
    · next hn =>
      have he1 : 1 ≤ e := by
        by_contra hc
        have : e = 0 := by omega
        subst this
        simp at h
        omega
      have : n / 10 < 10 ^ e := by
        rw [pow_succ] at h
        exact Nat.div_lt_of_lt_mul (by omega)
      have := ih he1 this
      simp only [List.length_append, List.length_singleton]
      omega

lemma padDigits_length {e n : Nat} (h : n < 10 ^ e) (he : 1 ≤ e) :
    (padDigits e n).length = e := by
  rw [padDigits, List.length_append, List.length_replicate]
  have := natDigits_len_le he h
  omega

lemma padDigits_val (e n : Nat) : digitsVal (padDigits e n) = n := by
  rw [padDigits, digitsVal_replicate_zero, natDigits_val]

lemma padDigits_all_digit (e n : Nat) : ∀ c ∈ padDigits e n, isDigitCh c = true := by
  intro c hc
  rcases List.mem_append.mp hc with h1 | h2
  · have : c = '0' := List.eq_of_mem_replicate h1
    subst this
    rfl
  · exact natDigits_all_digit n c h2

lemma takeWhile_append_stop {α : Type} {p : α → Bool} (l₁ l₂ : List α) (x : α)
    (h₁ : ∀ a ∈ l₁, p a = true) (hx : p x = false) :
    (l₁ ++ x :: l₂).takeWhile p = l₁ ∧ (l₁ ++ x :: l₂).dropWhile p = x :: l₂ := by
  induction l₁ with
  | nil => simp [List.takeWhile_cons, List.dropWhile_cons, hx]
  | cons a l₁ ih =>
    have ha : p a = true := h₁ a (by simp)
    have := ih (fun b hb => h₁ b (by simp [hb]))
    simp [List.takeWhile_cons, List.dropWhile_cons, ha, this.1, this.2]

lemma takeWhile_all_eq {α : Type} {p : α → Bool} (l : List α) (h : ∀ a ∈ l, p a = true) :
    l.takeWhile p = l ∧ l.dropWhile p = [] := by
  induction l with
  | nil => simp
  | cons a l ih =>
    have ha : p a = true := h a (by simp)
    have := ih (fun b hb => h b (by simp [hb]))
    simp [List.takeWhile_cons, List.dropWhile_cons, ha, this.1, this.2]

lemma canonDec_of_canonical {m : Int} {e : Nat} (h : e = 0 ∨ m % 10 ≠ 0) :
    canonDec m e = ⟨m, e⟩ := by
  cases e with
  | zero => rfl
  | succ e =>
    rcases h with h | h
    · omega
    · rw [canonDec, if_neg h]

lemma canonDec_canonical (m : Int) (e : Nat) : (canonDec m e).canonical := by
  induction e generalizing m with
  | zero => exact Or.inl rfl
  | succ e ih =>
    rw [canonDec]
    split
    · exact ih (m / 10)
    · next h => exact Or.inr h

lemma parseUnsigned_canonical {l : List Char} {d : Dec} (h : parseUnsigned l = some d) :
    d.canonical := by
  unfold parseUnsigned at h
  split at h
  · split at h
    · exact absurd h (by simp)
    · rw [Option.some_inj] at h
      rw [← h]
      exact canonDec_canonical _ _
  · split at h
    · rw [Option.some_inj] at h
      rw [← h]
      exact canonDec_canonical _ _
    · exact absurd h (by simp)
  · exact absurd h (by simp)

lemma neg_canonical {m : Int} {e : Nat} (h : (Dec.mk m e).canonical) :
    (Dec.mk (-m) e).canonical := by
  dsimp [Dec.canonical] at h ⊢
  rcases h with h | h
  · exact Or.inl h
  · right
    omega

lemma parseNum_canonical {s : String} {d : Dec} (h : parseNum s = some d) : d.canonical := by
  unfold parseNum at h
  split at h
  · rcases Option.map_eq_some'.mp h with ⟨d', hd', rfl⟩
    exact neg_canonical (parseUnsigned_canonical hd')
  · exact parseUnsigned_canonical h
  · exact parseUnsigned_canonical h

lemma parseNum_not_sign {l : List Char} (hm : ∀ rest, l ≠ '-' :: rest)
    (hp : ∀ rest, l ≠ '+' :: rest) : parseNum ⟨l⟩ = parseUnsigned l := by
  unfold parseNum
  split
  · next rest heq => exact absurd heq (hm rest)
  · next rest heq => exact absurd heq (hp rest)
  · rfl

lemma parseNum_neg (l : List Char) :
    parseNum ⟨'-' :: l⟩ = (parseUnsigned l).map (fun d => ⟨-d.m, d.e⟩) := rfl

lemma parseUnsigned_natDigits (n : Nat) :
    parseUnsigned (natDigits n) = some ⟨(n : Int), 0⟩ := by
  obtain ⟨htake, hdrop⟩ := takeWhile_all_eq (natDigits n) (natDigits_all_digit n)
  unfold parseUnsigned
  rw [hdrop]
  rw [htake, if_neg (natDigits_ne_nil n), natDigits_val]
  rfl

lemma parseUnsigned_frac (a b e : Nat) (he : 1 ≤ e) (hb : b < 10 ^ e) :
    parseUnsigned (natDigits a ++ '.' :: padDigits e b)
      = some (canonDec ((a * 10 ^ e + b : Nat) : Int) e) := by
  obtain ⟨htake, hdrop⟩ := takeWhile_append_stop (natDigits a) (padDigits e b) '.'
    (natDigits_all_digit a) (by decide)
  unfold parseUnsigned
  rw [hdrop]
  split
  · next heq => exact absurd heq (by simp)
  · next fp heq =>
    rw [List.cons.injEq] at heq
    rw [htake, ← heq.2]
    rw [if_pos ⟨List.all_eq_true.mpr (fun c hc => padDigits_all_digit e b c hc),
      Or.inl (natDigits_ne_nil a)⟩]
    rw [digitsVal_append, natDigits_val, padDigits_val, padDigits_length hb he]
  · next hne =>
    exact absurd rfl (hne (padDigits e b))

lemma natDigits_head_digit (n : Nat) :
    ∀ c cs, natDigits n = c :: cs → isDigitCh c = true := by
  intro c cs h
  exact natDigits_all_digit n c (by rw [h]; simp)

lemma parseNum_natDigits_append (n : Nat) (tail : List Char) :
    parseNum ⟨natDigits n ++ tail⟩ = parseUnsigned (natDigits n ++ tail) := by
  cases hnd : natDigits n with
  | nil => exact absurd hnd (natDigits_ne_nil n)
  | cons c cs =>
    have hc : isDigitCh c = true := natDigits_head_digit n c cs hnd
    rw [List.cons_append]
    apply parseNum_not_sign
    · intro rest heq
      rw [List.cons.injEq] at heq
      rw [heq.1] at hc
      exact absurd hc (by decide)
    · intro rest heq
      rw [List.cons.injEq] at heq
      rw [heq.1] at hc
      exact absurd hc (by decide)

/-- Round trip: parsing the rendered form of a canonical decimal returns
exactly that decimal. -/
lemma parseNum_renderDec {d : Dec} (h : d.canonical) : parseNum (renderDec d) = some d := by
  obtain ⟨m, e⟩ := d
  dsimp [Dec.canonical] at h
  unfold renderDec
  dsimp only
  by_cases he : e = 0
  · subst he
    rw [if_pos rfl]
    by_cases hm : m < 0
    · rw [if_pos hm, parseNum_neg, parseUnsigned_natDigits]
      simp only [Option.map_some', Option.some_inj, Dec.mk.injEq]
      rw [Int.ofNat_natAbs_of_nonpos (le_of_lt hm)]
      exact ⟨neg_neg m, trivial⟩
    · rw [if_neg hm]
      have : parseNum ⟨natDigits m.natAbs⟩ = parseUnsigned (natDigits m.natAbs) := by
        have := parseNum_natDigits_append m.natAbs []
        rwa [List.append_nil] at this
      rw [this, parseUnsigned_natDigits]
      simp only [Option.some_inj, Dec.mk.injEq]
      exact ⟨Int.natAbs_of_nonneg (by omega), trivial⟩
  · rw [if_neg he]
    have he1 : 1 ≤ e := by omega
    have hb : m.natAbs % 10 ^ e < 10 ^ e := Nat.mod_lt _ (by positivity)
    have hcanon : (m.natAbs : Int) % 10 ≠ 0 := by
      rcases h with h | h
      · exact absurd h he
      · rcases le_or_lt 0 m with hm0 | hm0
        · rw [Int.natAbs_of_nonneg hm0]
          exact h
        · rw [Int.ofNat_natAbs_of_nonpos (le_of_lt hm0)]
          omega
    have hval : (m.natAbs / 10 ^ e) * 10 ^ e + m.natAbs % 10 ^ e = m.natAbs :=
      Nat.div_add_mod' _ _
    by_cases hm : m < 0
    · rw [if_pos hm, parseNum_neg, parseUnsigned_frac _ _ _ he1 hb]
      rw [hval, canonDec_of_canonical (Or.inr hcanon)]
      simp only [Option.map_some', Option.some_inj, Dec.mk.injEq]
      rw [Int.ofNat_natAbs_of_nonpos (le_of_lt hm)]
      exact ⟨neg_neg m, trivial⟩
    · rw [if_neg hm, parseNum_natDigits_append, parseUnsigned_frac _ _ _ he1 hb]
      rw [hval, canonDec_of_canonical (Or.inr hcanon)]
      simp only [Option.some_inj, Dec.mk.injEq]
      exact ⟨Int.natAbs_of_nonneg (by omega), trivial⟩

lemma renderDec_chars (d : Dec) :
    ∀ c ∈ (renderDec d).data, isDigitCh c = true ∨ c = '.' ∨ c = '-' := by
  obtain ⟨m, e⟩ := d
  unfold renderDec
  dsimp only
  intro c hc
  have hcore : ∀ x ∈ (if e = 0 then natDigits m.natAbs
      else natDigits (m.natAbs / 10 ^ e) ++ '.' :: padDigits e (m.natAbs % 10 ^ e)),
      isDigitCh x = true ∨ x = '.' ∨ x = '-' := by
    intro x hx
    split at hx
    · exact Or.inl (natDigits_all_digit _ x hx)
    · rcases List.mem_append.mp hx with h1 | h2
      · exact Or.inl (natDigits_all_digit _ x h1)
      · rcases List.mem_cons.mp h2 with h3 | h4
        · exact Or.inr (Or.inl h3)
        · exact Or.inl (padDigits_all_digit _ _ x h4)
  split at hc
  · rcases List.mem_cons.mp hc with h1 | h2
    · exact Or.inr (Or.inr h1)
    · exact hcore c h2
  · exact hcore c hc

lemma stripCurrency_renderDec (d : Dec) :
    stripCurrencyChars (renderDec d) = renderDec d := by
  unfold stripCurrencyChars
  apply congrArg String.mk
  apply List.filter_eq_self.mpr
  intro c hc
  rcases renderDec_chars d c hc with h | h | h
  · simp only [decide_eq_true_eq]
    rintro (rfl | rfl) <;> exact absurd h (by decide)
  · subst h
    decide
  · subst h
    decide

lemma strip_of_no_ws {l : List Char} (h : ∀ c ∈ l, isWsCh c = false) :
    stripBack (stripFront l) = l := by
  have h1 : stripFront l = l := by
    apply stripFront_of_head
    intro c hc
    cases l with
    | nil => simp at hc
    | cons a l =>
      rw [List.head?_cons, Option.some_inj] at hc
      exact hc ▸ h a (by simp)
  rw [h1]
  unfold stripBack
  have h2 : stripFront l.reverse = l.reverse := by
    apply stripFront_of_head
    intro c hc
    have hmem : c ∈ l.reverse := by
      cases hr : l.reverse with
      | nil => rw [hr] at hc; simp at hc
      | cons a t =>
        rw [hr, List.head?_cons, Option.some_inj] at hc
        rw [← hc]
        exact List.mem_cons_self a t
    exact h c (List.mem_reverse.mp hmem)
  rw [h2, List.reverse_reverse]

lemma strStrip_renderDec (d : Dec) : strStrip (renderDec d) = renderDec d := by
  unfold strStrip
  apply congrArg String.mk
  apply strip_of_no_ws
  intro c hc
  rcases renderDec_chars d c hc with h | h | h
  · rw [← Bool.not_eq_true, isWsCh_iff]
    simp only [isDigitCh, Bool.and_eq_true, decide_eq_true_eq] at h
    omega
  · subst h
    decide
  · subst h
    decide

lemma cleanCurrencyCell_str (s : String) :
    cleanCurrencyCell (Cell.str s)
      = (match parseNum (strStrip (stripCurrencyChars s)) with
          | some d => Cell.num d
          | none => Cell.na) := rfl

lemma cleanCurrencyCell_num_as_str (d : Dec) :
    cleanCurrencyCell (Cell.num d) = cleanCurrencyCell (Cell.str (renderDec d)) := rfl

lemma cleanCurrencyCell_num {d : Dec} (h : d.canonical) :
    cleanCurrencyCell (Cell.num d) = Cell.num d := by
  rw [cleanCurrencyCell_num_as_str, cleanCurrencyCell_str]
  rw [stripCurrency_renderDec, strStrip_renderDec, parseNum_renderDec h]

lemma cleanCurrencyCell_shape (c : Cell) :
    cleanCurrencyCell c = Cell.na ∨
      ∃ d, cleanCurrencyCell c = Cell.num d ∧ d.canonical := by
  have hstr : ∀ s : String, cleanCurrencyCell (Cell.str s) = Cell.na ∨
      ∃ d, cleanCurrencyCell (Cell.str s) = Cell.num d ∧ d.canonical := by
    intro s
    rw [cleanCurrencyCell_str]
    cases hp : parseNum (strStrip (stripCurrencyChars s)) with
    | none => exact Or.inl rfl
    | some d => exact Or.inr ⟨d, rfl, parseNum_canonical hp⟩
  cases c with
  | na => exact Or.inl rfl
  | str s => exact hstr s
  | num d =>
    rw [cleanCurrencyCell_num_as_str]
    exact hstr (renderDec d)
  | bool b =>
    cases b
    · exact hstr "False"
    · exact hstr "True"

lemma cleanCurrencyCell_idem (c : Cell) :
    cleanCurrencyCell (cleanCurrencyCell c) = cleanCurrencyCell c := by
  rcases cleanCurrencyCell_shape c with h | ⟨d, hd, hc⟩
  · rw [h]
    rfl
  · rw [hd]
    exact cleanCurrencyCell_num hc

/-! ## Lemmas: the sort order -/

lemma char_eq_of_toNat {a b : Char} (h : a.toNat = b.toNat) : a = b :=
  Char.ext (UInt32.ext h)

lemma listLe_total : ∀ a b : List Char, listLe a b = true ∨ listLe b a = true
  | [], _ => Or.inl rfl
  | _ :: _, [] => Or.inr rfl
  | x :: xs, y :: ys => by
    rw [listLe, listLe]
    by_cases h1 : x.toNat < y.toNat
    · exact Or.inl (by rw [if_pos h1])
    · by_cases h2 : y.toNat < x.toNat
      · exact Or.inr (by rw [if_pos h2])
      · rw [if_neg h1, if_neg h2, if_neg h2, if_neg h1]
        exact listLe_total xs ys

lemma listLe_trans : ∀ a b c : List Char,
    listLe a b = true → listLe b c = true → listLe a c = true
  | [], _, _, _, _ => rfl
  | _ :: _, [], _, h, _ => by exact absurd h (by rw [listLe]; simp)
  | _ :: _, _ :: _, [], _, h => by exact absurd h (by rw [listLe]; simp)
  | x :: xs, y :: ys, z :: zs, h1, h2 => by
    rw [listLe] at h1 h2 ⊢
    by_cases hxy : x.toNat < y.toNat <;> by_cases hyz : y.toNat < z.toNat
    · rw [if_pos (by omega)]
    · rw [if_neg hyz] at h2
      by_cases hzy : z.toNat < y.toNat
      · rw [if_pos hzy] at h2
        simp at h2
      · rw [if_pos (show x.toNat < z.toNat by omega)]
    · rw [if_neg hxy] at h1
      by_cases hyx : y.toNat < x.toNat
      · rw [if_pos hyx] at h1
        simp at h1
      · rw [if_pos (show x.toNat < z.toNat by omega)]
    · rw [if_neg hxy] at h1
      rw [if_neg hyz] at h2
      by_cases hyx : y.toNat < x.toNat
      · rw [if_pos hyx] at h1; simp at h1
      · by_cases hzy : z.toNat < y.toNat
        · rw [if_pos hzy] at h2; simp at h2
        · rw [if_neg hyx] at h1
          rw [if_neg hzy] at h2
          rw [if_neg (by omega), if_neg (by omega)]
          exact listLe_trans xs ys zs h1 h2

lemma listLe_antisymm : ∀ a b : List Char, listLe a b = true → listLe b a = true → a = b
  | [], [], _, _ => rfl
  | [], _ :: _, _, h => by exact absurd h (by rw [listLe]; simp)
  | _ :: _, [], h, _ => by exact absurd h (by rw [listLe]; simp)
  | x :: xs, y :: ys, h1, h2 => by
    rw [listLe] at h1 h2
    by_cases hxy : x.toNat < y.toNat
    · rw [if_neg (show ¬ y.toNat < x.toNat by omega), if_pos hxy] at h2
      simp at h2
    · by_cases hyx : y.toNat < x.toNat
      · rw [if_neg hxy, if_pos hyx] at h1
        simp at h1
      · rw [if_neg hxy, if_neg hyx] at h1
        rw [if_neg hyx, if_neg hxy] at h2
        rw [char_eq_of_toNat (show x.toNat = y.toNat by omega),
          listLe_antisymm xs ys h1 h2]

lemma strLe_total (a b : String) : strLe a b = true ∨ strLe b a = true :=
  listLe_total a.data b.data

lemma strLe_trans {a b c : String} (h1 : strLe a b = true) (h2 : strLe b c = true) :
    strLe a c = true :=
  listLe_trans a.data b.data c.data h1 h2

lemma strLe_antisymm {a b : String} (h1 : strLe a b = true) (h2 : strLe b a = true) :
    a = b := by
  apply congrArg String.mk (listLe_antisymm a.data b.data h1 h2)

lemma pidLe_total : ∀ a b : Option Int, pidLe a b = true ∨ pidLe b a = true
  | none, none => Or.inl rfl
  | some _, none => Or.inl rfl
  | none, some _ => Or.inr rfl
  | some a, some b => by
    rw [pidLe, pidLe]
    simp only [decide_eq_true_eq]
    omega

lemma pidLe_trans : ∀ {a b c : Option Int},
    pidLe a b = true → pidLe b c = true → pidLe a c = true
  | none, none, none, _, _ => rfl
  | none, some _, none, _, _ => rfl
  | some _, none, none, _, _ => rfl
  | some _, some _, none, _, _ => rfl
  | none, none, some _, _, h2 => by exact absurd h2 (by rw [pidLe]; simp)
  | some _, none, some _, _, h2 => by exact absurd h2 (by rw [pidLe]; simp)
  | none, some _, some _, h1, _ => by exact absurd h1 (by rw [pidLe]; simp)
  | some a, some b, some c, h1, h2 => by
    rw [pidLe] at h1 h2 ⊢
    simp only [decide_eq_true_eq] at h1 h2 ⊢
    omega

lemma pidLe_antisymm : ∀ {a b : Option Int},
    pidLe a b = true → pidLe b a = true → a = b
  | none, none, _, _ => rfl
  | none, some _, h1, _ => by exact absurd h1 (by rw [pidLe]; simp)
  | some _, none, _, h2 => by exact absurd h2 (by rw [pidLe]; simp)
  | some a, some b, h1, h2 => by
    rw [pidLe] at h1 h2
    simp only [decide_eq_true_eq] at h1 h2
    rw [show a = b by omega]

lemma keyLe_total (k₁ k₂ : Key) : keyLe k₁ k₂ = true ∨ keyLe k₂ k₁ = true := by
  obtain ⟨c₁, p₁, s₁, t₁⟩ := k₁
  obtain ⟨c₂, p₂, s₂, t₂⟩ := k₂
  rw [keyLe, keyLe]
  by_cases hc : c₁ = c₂
  · rw [if_pos hc, if_pos hc.symm]
    by_cases hp : p₁ = p₂
    · rw [if_pos hp, if_pos hp.symm]
      by_cases hs : s₁ = s₂
      · rw [if_pos hs, if_pos hs.symm]
        exact strLe_total t₁ t₂
      · rw [if_neg hs, if_neg (fun h => hs h.symm)]
        exact strLe_total s₁ s₂
    · rw [if_neg hp, if_neg (fun h => hp h.symm)]
      exact pidLe_total p₁ p₂
  · rw [if_neg hc, if_neg (fun h => hc h.symm)]
    exact strLe_total c₁ c₂

lemma keyLe_trans {k₁ k₂ k₃ : Key} (h1 : keyLe k₁ k₂ = true) (h2 : keyLe k₂ k₃ = true) :
    keyLe k₁ k₃ = true := by
  obtain ⟨c₁, p₁, s₁, t₁⟩ := k₁
  obtain ⟨c₂, p₂, s₂, t₂⟩ := k₂
  obtain ⟨c₃, p₃, s₃, t₃⟩ := k₃
  rw [keyLe] at h1 h2 ⊢
  by_cases hc12 : c₁ = c₂ <;> by_cases hc23 : c₂ = c₃
  · subst hc12
    subst hc23
    rw [if_pos rfl] at h1 h2 ⊢
    by_cases hp12 : p₁ = p₂ <;> by_cases hp23 : p₂ = p₃
    · subst hp12
      subst hp23
      rw [if_pos rfl] at h1 h2 ⊢
      by_cases hs12 : s₁ = s₂ <;> by_cases hs23 : s₂ = s₃
      · subst hs12; subst hs23
        rw [if_pos rfl] at h1 h2 ⊢
        exact strLe_trans h1 h2
      · subst hs12
        rw [if_pos rfl] at h1
        rw [if_neg hs23] at h2 ⊢
        exact h2
      · subst hs23
        rw [if_neg hs12] at h1 ⊢
        rw [if_pos rfl] at h2
        exact h1
      · rw [if_neg hs12] at h1
        rw [if_neg hs23] at h2
        by_cases hs13 : s₁ = s₃
        · subst hs13
          exact absurd (strLe_antisymm h1 h2) hs12
        · rw [if_neg hs13]
          exact strLe_trans h1 h2
    · subst hp12
      rw [if_pos rfl] at h1
      rw [if_neg hp23] at h2 ⊢
      exact h2
    · subst hp23
      rw [if_neg hp12] at h1 ⊢
      rw [if_pos rfl] at h2
      exact h1
    · rw [if_neg hp12] at h1
      rw [if_neg hp23] at h2
      by_cases hp13 : p₁ = p₃
      · subst hp13
        exact absurd (pidLe_antisymm h1 h2) hp12
      · rw [if_neg hp13]
        exact pidLe_trans h1 h2
  · subst hc12
    rw [if_pos rfl] at h1
    rw [if_neg hc23] at h2 ⊢
    exact h2
  · subst hc23
    rw [if_neg hc12] at h1 ⊢
    rw [if_pos rfl] at h2
    exact h1
  · rw [if_neg hc12] at h1
    rw [if_neg hc23] at h2
    by_cases hc13 : c₁ = c₃
    · subst hc13
      exact absurd (strLe_antisymm h1 h2) hc12
    · rw [if_neg hc13]
      exact strLe_trans h1 h2

/-! ## Lemmas: sorting -/

lemma insertByKey_perm {α : Type} (key : α → Key) (r : α) (l : List α) :
    List.Perm (insertByKey key r l) (r :: l) := by
  induction l with
  | nil => exact List.Perm.refl _
  | cons x xs ih =>
    rw [insertByKey]
    split
    · exact List.Perm.refl _
    · exact (ih.cons x).trans (List.Perm.swap r x xs)

lemma sortByKey_perm {α : Type} (key : α → Key) (l : List α) :
    List.Perm (sortByKey key l) l := by
  induction l with
  | nil => exact List.Perm.refl _
  | cons r rs ih => exact (insertByKey_perm key r _).trans (ih.cons r)

lemma insertByKey_pairwise {α : Type} (key : α → Key) {r : α} {l : List α}
    (h : l.Pairwise (fun a b => keyLe (key a) (key b) = true)) :
    (insertByKey key r l).Pairwise (fun a b => keyLe (key a) (key b) = true) := by
  induction l with
  | nil => simp [insertByKey]
  | cons x xs ih =>
    rw [insertByKey]
    rcases List.pairwise_cons.mp h with ⟨hx, hxs⟩
    split
    · next hle =>
      refine List.pairwise_cons.mpr ⟨?_, h⟩
      intro b hb
      rcases List.mem_cons.mp hb with rfl | hb
      · exact hle
      · exact keyLe_trans hle (hx b hb)
    · next hle =>
      have hrx : keyLe (key x) (key r) = true := by
        rcases keyLe_total (key r) (key x) with h1 | h1
        · exact absurd h1 hle
        · exact h1
      refine List.pairwise_cons.mpr ⟨?_, ih hxs⟩
      intro b hb
      have hb' := (insertByKey_perm key r xs).mem_iff.mp hb
      rcases List.mem_cons.mp hb' with rfl | hb''
      · exact hrx
      · exact hx b hb''

lemma sortByKey_pairwise {α : Type} (key : α → Key) (l : List α) :
    (sortByKey key l).Pairwise (fun a b => keyLe (key a) (key b) = true) := by
  induction l with
  | nil => exact List.Pairwise.nil
  | cons r rs ih => exact insertByKey_pairwise key ih

lemma sortByKey_of_pairwise {α : Type} (key : α → Key) {l : List α}
    (h : l.Pairwise (fun a b => keyLe (key a) (key b) = true)) :
    sortByKey key l = l := by
  induction l with
  | nil => rfl
  | cons r rs ih =>
    rcases List.pairwise_cons.mp h with ⟨hr, hrs⟩
    rw [sortByKey, ih hrs]
    cases rs with
    | nil => rfl
    | cons x xs => rw [insertByKey, if_pos (hr x (by simp))]

/-! ## Lemmas: `drop_duplicates` -/

lemma dropDupAux_sublist {α κ : Type} [DecidableEq κ] (key : α → κ)
    (seen : List κ) (l : List α) : List.Sublist (dropDupAux key seen l) l := by
  induction l generalizing seen with
  | nil => exact List.Sublist.refl _
  | cons r rs ih =>
    rw [dropDupAux]
    split
    · exact (ih seen).cons r
    · exact (ih _).cons₂ r

lemma dropDupAux_not_seen {α κ : Type} [DecidableEq κ] (key : α → κ)
    (seen : List κ) (l : List α) :
    ∀ r ∈ dropDupAux key seen l, key r ∉ seen := by
  induction l generalizing seen with
  | nil => simp [dropDupAux]
  | cons r rs ih =>
    rw [dropDupAux]
    split
    · exact ih seen
    · next hns =>
      intro r' hr'
      rcases List.mem_cons.mp hr' with rfl | hr'
      · exact hns
      · have := ih (key r :: seen) r' hr'
        exact fun hs => this (List.mem_cons_of_mem _ hs)

lemma dropDupAux_keys_nodup {α κ : Type} [DecidableEq κ] (key : α → κ)
    (seen : List κ) (l : List α) :
    ((dropDupAux key seen l).map key).Nodup := by
  induction l generalizing seen with
  | nil => simp [dropDupAux]
  | cons r rs ih =>
    rw [dropDupAux]
    split
    · exact ih seen
    · rw [List.map_cons]
      refine List.nodup_cons.mpr ⟨?_, ih _⟩
      intro hmem
      rcases List.mem_map.mp hmem with ⟨r', hr', hkr⟩
      exact dropDupAux_not_seen key _ rs r' hr'
        (by rw [hkr]; exact List.mem_cons_self _ _)

lemma dropDupAux_of_nodup {α κ : Type} [DecidableEq κ] (key : α → κ)
    (seen : List κ) (l : List α)
    (hn : (l.map key).Nodup) (hs : ∀ r ∈ l, key r ∉ seen) :
    dropDupAux key seen l = l := by
  induction l generalizing seen with
  | nil => rfl
  | cons r rs ih =>
    rw [List.map_cons, List.nodup_cons] at hn
    rw [dropDupAux, if_neg (hs r (List.mem_cons_self r rs))]
    congr 1
    apply ih _ hn.2
    intro r' hr' hmem
    rcases List.mem_cons.mp hmem with heq | hmem'
    · exact hn.1 (heq ▸ List.mem_map_of_mem key hr')
    · exact hs r' (List.mem_cons_of_mem _ hr') hmem'

lemma drop_duplicates_keys_nodup {α κ : Type} [DecidableEq κ] (key : α → κ) (l : List α) :
    ((drop_duplicates key l).map key).Nodup :=
  dropDupAux_keys_nodup key [] l

lemma drop_duplicates_of_nodup {α κ : Type} [DecidableEq κ] (key : α → κ) {l : List α}
    (hn : (l.map key).Nodup) : drop_duplicates key l = l :=
  dropDupAux_of_nodup key [] l hn (by simp)

lemma drop_duplicates_sublist {α κ : Type} [DecidableEq κ] (key : α → κ) (l : List α) :
    List.Sublist (drop_duplicates key l) l :=
  dropDupAux_sublist key [] l

lemma dropDupAux_filter {α κ : Type} [DecidableEq κ] (key : α → κ)
    (seen : List κ) (l : List α) (k : κ) (hk : k ∉ seen) :
    (dropDupAux key seen l).filter (fun r => decide (key r = k))
      = (l.filter (fun r => decide (key r = k))).take 1 := by
  induction l generalizing seen with
  | nil => rfl
  | cons r rs ih =>
    rw [dropDupAux]
    split
    · next hseen =>
      have hne : key r ≠ k := fun h => hk (h ▸ hseen)
      rw [List.filter_cons, if_neg (by simp [hne])]
      exact ih seen hk
    · next hseen =>
      by_cases hrk : key r = k
      · subst hrk
        rw [List.filter_cons, List.filter_cons, if_pos (by simp), if_pos (by simp)]
        have hempty : (dropDupAux key (key r :: seen) rs).filter
            (fun r' => decide (key r' = key r)) = [] := by
          rw [List.filter_eq_nil_iff]
          intro a ha
          simp only [decide_eq_true_eq]
          intro heq
          exact dropDupAux_not_seen key _ rs a ha (heq ▸ List.mem_cons_self _ _)
        rw [hempty]
        rfl
      · rw [List.filter_cons, List.filter_cons, if_neg (by simp [hrk]),
          if_neg (by simp [hrk])]
        apply ih
        intro hmem
        rcases List.mem_cons.mp hmem with heq | hmem'
        · exact hrk heq.symm
        · exact hk hmem'

lemma drop_duplicates_filter {α κ : Type} [DecidableEq κ] (key : α → κ)
    (l : List α) (k : κ) :
    (drop_duplicates key l).filter (fun r => decide (key r = k))
      = (l.filter (fun r => decide (key r = k))).take 1 :=
  dropDupAux_filter key [] l k (by simp)

lemma filter_take_one_of_find {α : Type} {p : α → Bool} {l : List α} {a : α}
    (h : l.find? p = some a) : (l.filter p).take 1 = [a] := by
  induction l with
  | nil => simp at h
  | cons x xs ih =>
    by_cases hp : p x
    · rw [List.find?_cons_of_pos _ hp, Option.some_inj] at h
      subst h
      rw [List.filter_cons, if_pos hp]
      rfl
    · rw [List.find?_cons_of_neg _ hp] at h
      rw [List.filter_cons, if_neg hp]
      exact ih h

lemma find_of_mem_keys {α κ : Type} [DecidableEq κ] (key : α → κ) {l : List α} {k : κ}
    (h : k ∈ l.map key) : ∃ a, l.find? (fun r => decide (key r = k)) = some a ∧ key a = k := by
  induction l with
  | nil => simp at h
  | cons x xs ih =>
    by_cases hx : key x = k
    · exact ⟨x, List.find?_cons_of_pos _ (by simpa using hx), hx⟩
    · rw [List.map_cons] at h
      rcases List.mem_cons.mp h with heq | hmem
      · exact absurd heq.symm hx
      · rcases ih hmem with ⟨a, ha, hk⟩
        exact ⟨a, by rw [List.find?_cons_of_neg _ (by simpa using hx)]; exact ha, hk⟩

/-! ## Lemmas: `lookupKey` -/

lemma lookupKey_cons_self {V : Type} (k : Key) (v : V) (c : List (Key × V)) :
    lookupKey k ((k, v) :: c) = some v := by
  rw [lookupKey, if_pos rfl]

lemma lookupKey_cons_ne {V : Type} {k k' : Key} (v : V) (c : List (Key × V))
    (h : k' ≠ k) : lookupKey k ((k', v) :: c) = lookupKey k c := by
  rw [lookupKey, if_neg h]

lemma lookupKey_getD_prop {V : Type} (P : V → Prop) (vna : V) (hvna : P vna)
    (c : List (Key × V)) (hc : ∀ kv ∈ c, P kv.2) (k : Key) :
    P ((lookupKey k c).getD vna) := by
  induction c with
  | nil => exact hvna
  | cons kv c ih =>
    obtain ⟨k', v⟩ := kv
    rw [lookupKey]
    split
    · exact hc (k', v) (List.mem_cons_self _ _)
    · exact ih (fun kv h => hc kv (List.mem_cons_of_mem _ h))

/-! ## Lemmas: group-wise forward fill -/

section FfillLemmas

variable {α V : Type} (key : α → Key) (getv : α → V) (setv : α → V → α)
variable (fill : V → V → V) (vna : V)

lemma ffillGo_length (carry : List (Key × V)) (l : List α) :
    (ffillGo key getv setv fill vna carry l).length = l.length := by
  induction l generalizing carry with
  | nil => rfl
  | cons r rs ih =>
    rw [ffillGo]
    split
    · rw [List.length_cons, List.length_cons, ih]
    · rw [List.length_cons, List.length_cons, ih]

lemma ffillGo_map_key (hkey : ∀ r v, key (setv r v) = key r)
    (carry : List (Key × V)) (l : List α) :
    (ffillGo key getv setv fill vna carry l).map key = l.map key := by
  induction l generalizing carry with
  | nil => rfl
  | cons r rs ih =>
    rw [ffillGo]
    split
    · rw [List.map_cons, List.map_cons, ih, hkey]
    · rw [List.map_cons, List.map_cons, ih, hkey]

lemma ffillGo_mem (carry : List (Key × V)) (l : List α) :
    ∀ r' ∈ ffillGo key getv setv fill vna carry l, ∃ r ∈ l, ∃ v, r' = setv r v := by
  induction l generalizing carry with
  | nil => simp [ffillGo]
  | cons r rs ih =>
    rw [ffillGo]
    split
    · intro r' hr'
      rcases List.mem_cons.mp hr' with rfl | hr'
      · exact ⟨r, List.mem_cons_self _ _, vna, rfl⟩
      · rcases ih carry r' hr' with ⟨r₀, h₀, v, hv⟩
        exact ⟨r₀, List.mem_cons_of_mem _ h₀, v, hv⟩
    · intro r' hr'
      rcases List.mem_cons.mp hr' with rfl | hr'
      · exact ⟨r, List.mem_cons_self _ _, _, rfl⟩
      · rcases ih _ r' hr' with ⟨r₀, h₀, v, hv⟩
        exact ⟨r₀, List.mem_cons_of_mem _ h₀, v, hv⟩

lemma ffillGo_vals (P : V → Prop) (hvna : P vna)
    (hfill : ∀ a b, P a → P b → P (fill a b))
    (hget : ∀ r v, getv (setv r v) = v)
    (carry : List (Key × V)) (l : List α)
    (hcarry : ∀ kv ∈ carry, P kv.2) (hl : ∀ r ∈ l, P (getv r)) :
    ∀ r' ∈ ffillGo key getv setv fill vna carry l, P (getv r') := by
  induction l generalizing carry with
  | nil => simp [ffillGo]
  | cons r rs ih =>
    rw [ffillGo]
    split
    · intro r' hr'
      rcases List.mem_cons.mp hr' with rfl | hr'
      · rw [hget]
        exact hvna
      · exact ih carry hcarry (fun x hx => hl x (List.mem_cons_of_mem _ hx)) r' hr'
    · have hv : P (fill ((lookupKey (key r) carry).getD vna) (getv r)) :=
        hfill _ _ (lookupKey_getD_prop P vna hvna carry hcarry (key r))
          (hl r (List.mem_cons_self _ _))
      intro r' hr'
      rcases List.mem_cons.mp hr' with rfl | hr'
      · rw [hget]
        exact hv
      · refine ih _ ?_ (fun x hx => hl x (List.mem_cons_of_mem _ hx)) r' hr'
        intro kv hkv
        rcases List.mem_cons.mp hkv with rfl | hkv
        · exact hv
        · exact hcarry kv hkv

lemma ffillGo_none_na (hkey : ∀ r v, key (setv r v) = key r)
    (hget : ∀ r v, getv (setv r v) = v)
    (carry : List (Key × V)) (l : List α) :
    ∀ r' ∈ ffillGo key getv setv fill vna carry l,
      (key r').2.1 = none → getv r' = vna := by
  induction l generalizing carry with
  | nil => simp [ffillGo]
  | cons r rs ih =>
    rw [ffillGo]
    split
    · intro r' hr'
      rcases List.mem_cons.mp hr' with rfl | hr'
      · intro _
        rw [hget]
      · exact ih carry r' hr'
    · next hpid =>
      intro r' hr'
      rcases List.mem_cons.mp hr' with rfl | hr'
      · intro hnone
        rw [hkey] at hnone
        rw [hpid] at hnone
        exact absurd hnone (by simp)
      · exact ih _ r' hr'

lemma ffillGo_eq_self (hset : ∀ r, setv r (getv r) = r)
    (hfna : ∀ v, fill vna v = v)
    (carry : List (Key × V)) (l : List α)
    (hnodup : (l.map key).Nodup)
    (hcarry : ∀ r ∈ l, lookupKey (key r) carry = none)
    (hna : ∀ r ∈ l, (key r).2.1 = none → getv r = vna) :
    ffillGo key getv setv fill vna carry l = l := by
  induction l generalizing carry with
  | nil => rfl
  | cons r rs ih =>
    rw [List.map_cons, List.nodup_cons] at hnodup
    rw [ffillGo]
    split
    · next hpid =>
      have hr : setv r vna = r := by
        rw [← hna r (List.mem_cons_self _ _) hpid, hset]
      rw [hr]
      congr 1
      exact ih carry hnodup.2 (fun x hx => hcarry x (List.mem_cons_of_mem _ hx))
        (fun x hx => hna x (List.mem_cons_of_mem _ hx))
    · rw [hcarry r (List.mem_cons_self _ _)]
      rw [Option.getD_none, hfna, hset]
      congr 1
      apply ih _ hnodup.2
      · intro x hx
        rw [lookupKey_cons_ne]
        · exact hcarry x (List.mem_cons_of_mem _ hx)
        · intro heq
          exact hnodup.1 (heq ▸ List.mem_map_of_mem key hx)
      · exact fun x hx => hna x (List.mem_cons_of_mem _ hx)

lemma ffillGo_getD (hget : ∀ r v, getv (setv r v) = v)
    (dflt : α) (l : List α) (carry : List (Key × V)) (i : Nat) (hi : i < l.length)
    (hsome : (key (l.getD i dflt)).2.1 ≠ none) :
    getv ((ffillGo key getv setv fill vna carry l).getD i dflt)
      = (((l.take (i + 1)).filter
            (fun r => decide (key r = key (l.getD i dflt)))).map getv).foldl fill
          ((lookupKey (key (l.getD i dflt)) carry).getD vna) := by
  induction l generalizing carry i with
  | nil => simp at hi
  | cons r rs ih =>
    cases i with
    | zero =>
      rw [List.getD_cons_zero] at hsome ⊢
      rw [ffillGo]
      split
      · next hpid => exact absurd hpid hsome
      · rw [List.getD_cons_zero, hget]
        rw [List.take_succ_cons, List.take_zero, List.filter_cons,
          if_pos (by simp), List.filter_nil, List.map_cons, List.map_nil,
          List.foldl_cons, List.foldl_nil]
    | succ i =>
      rw [List.getD_cons_succ] at hsome ⊢
      have hi' : i < rs.length := by
        rw [List.length_cons] at hi
        omega
      rw [ffillGo]
      split
      · next hpid =>
        rw [List.getD_cons_succ]
        rw [ih carry i hi' hsome]
        rw [List.take_succ_cons, List.filter_cons]
        rw [if_neg ?hne]
        case hne =>
          simp only [decide_eq_true_eq]
          intro heq
          rw [← heq] at hsome
          exact hsome hpid
      · rw [List.getD_cons_succ]
        rw [ih _ i hi' hsome]
        rw [List.take_succ_cons, List.filter_cons]
        by_cases heq : key r = key (rs.getD i dflt)
        · rw [if_pos (by simpa using heq), List.map_cons, List.foldl_cons]
          rw [← heq, lookupKey_cons_self]
          rw [heq]
          rfl
        · rw [if_neg (by simpa using heq)]
          rw [lookupKey_cons_ne _ _ heq]

lemma dropDupAux_ffillGo (hkey : ∀ r v, key (setv r v) = key r)
    (hset : ∀ r, setv r (getv r) = r)
    (hfna : ∀ v, fill vna v = v)
    (seen : List Key) (carry : List (Key × V)) (l : List α)
    (hsome : ∀ r ∈ l, (key r).2.1 ≠ none)
    (hinv : ∀ k, k ∉ seen → lookupKey k carry = none) :
    dropDupAux key seen (ffillGo key getv setv fill vna carry l)
      = dropDupAux key seen l := by
  induction l generalizing seen carry with
  | nil => rfl
  | cons r rs ih =>
    rw [ffillGo]
    split
    · next hpid => exact absurd hpid (hsome r (List.mem_cons_self _ _))
    · rw [dropDupAux, dropDupAux, hkey]
      by_cases hseen : key r ∈ seen
      · rw [if_pos hseen, if_pos hseen]
        apply ih _ _ (fun x hx => hsome x (List.mem_cons_of_mem _ hx))
        intro k hk
        rw [lookupKey_cons_ne]
        · exact hinv k hk
        · intro heq
          rw [heq] at hseen
          exact hk hseen
      · rw [if_neg hseen, if_neg hseen]
        rw [hinv (key r) hseen, Option.getD_none, hfna, hset]
        congr 1
        apply ih _ _ (fun x hx => hsome x (List.mem_cons_of_mem _ hx))
        intro k hk
        have hkr : k ≠ key r := by
          intro heq
          exact hk (heq ▸ List.mem_cons_self _ _)
        rw [lookupKey_cons_ne _ _ (Ne.symm hkr)]
        apply hinv
        intro hks
        exact hk (List.mem_cons_of_mem _ hks)

end FfillLemmas

/-! ## Lemmas: instantiation for the two premium tables -/

lemma map_id_of_fixed {β : Type} {f : β → β} {l : List β} (h : ∀ x ∈ l, f x = x) :
    l.map f = l := by
  induction l with
  | nil => rfl
  | cons x xs ih =>
    rw [List.map_cons, h x (List.mem_cons_self _ _),
      ih (fun y hy => h y (List.mem_cons_of_mem _ hy))]

lemma groupFfillMA_eq (l : List MARow) :
    groupFfillMA l = ffillGo MARow.key MARow.premium
      (fun r v => { r with premium := v }) fillCell Cell.na [] l := rfl

lemma groupFfillMAPD_eq (l : List MAPDRow) :
    groupFfillMAPD l = ffillGo MAPDRow.key MAPDRow.fills
      MAPDRow.setFills fillVals FillVals.na [] l := rfl

lemma fillCell_na_left (v : Cell) : fillCell Cell.na v = v := by
  unfold fillCell
  split
  · next h => exact h.symm
  · rfl

lemma fillVals_na_left (v : FillVals) : fillVals FillVals.na v = v := by
  obtain ⟨a, b, c, d, e⟩ := v
  unfold fillVals FillVals.na
  dsimp only
  rw [fillCell_na_left, fillCell_na_left, fillCell_na_left, fillCell_na_left,
    fillCell_na_left]

lemma premClean_fillCell {a b : Cell}
    (ha : a = Cell.na ∨ ∃ d, a = Cell.num d ∧ d.canonical)
    (hb : b = Cell.na ∨ ∃ d, b = Cell.num d ∧ d.canonical) :
    fillCell a b = Cell.na ∨ ∃ d, fillCell a b = Cell.num d ∧ d.canonical := by
  unfold fillCell
  split
  · exact ha
  · exact hb

lemma cleanCurrencyCell_of_clean {c : Cell}
    (h : c = Cell.na ∨ ∃ d, c = Cell.num d ∧ d.canonical) :
    cleanCurrencyCell c = c := by
  rcases h with rfl | ⟨d, rfl, hd⟩
  · rfl
  · exact cleanCurrencyCell_num hd

lemma mem_cleanMA_shape {t : List MARow} {r : MARow} (hr : r ∈ cleanMA t) :
    (∃ r₁ ∈ t, r.contractid = strStrip (strUpper r₁.contractid)
      ∧ r.state = strStrip r₁.state ∧ r.county = strStrip r₁.county ∧ r.planid = r₁.planid)
    ∧ (r.premium = Cell.na ∨ ∃ d, r.premium = Cell.num d ∧ d.canonical) := by
  unfold cleanMA at hr
  have hr1 : r ∈ groupFfillMA (sortByKey MARow.key (t.map normMARow)) :=
    (drop_duplicates_sublist MARow.key _).subset hr
  rw [groupFfillMA_eq] at hr1
  constructor
  · obtain ⟨r₀, hr₀, v, rfl⟩ := ffillGo_mem MARow.key MARow.premium
      (fun r v => { r with premium := v }) fillCell Cell.na [] _ r hr1
    have hr₀' : r₀ ∈ t.map normMARow :=
      (sortByKey_perm MARow.key _).mem_iff.mp hr₀
    obtain ⟨r₁, hr₁, rfl⟩ := List.mem_map.mp hr₀'
    exact ⟨r₁, hr₁, rfl, rfl, rfl, rfl⟩
  · refine ffillGo_vals MARow.key MARow.premium (fun r v => { r with premium := v })
      fillCell Cell.na
      (fun c => c = Cell.na ∨ ∃ d, c = Cell.num d ∧ d.canonical)
      (Or.inl rfl) (fun a b => premClean_fillCell) (fun _ _ => rfl)
      [] _ (by simp) ?_ r hr1
    intro x hx
    have hx' : x ∈ t.map normMARow := (sortByKey_perm MARow.key _).mem_iff.mp hx
    obtain ⟨x₁, _, rfl⟩ := List.mem_map.mp hx'
    exact cleanCurrencyCell_shape x₁.premium

lemma cleanMA_norm_fixed {t : List MARow} : ∀ r ∈ cleanMA t, normMARow r = r := by
  intro r hr
  obtain ⟨⟨r₁, _, hcid, hst, hcty, _⟩, hprem⟩ := mem_cleanMA_shape hr
  obtain ⟨c, p, s, cty, prem⟩ := r
  dsimp only at hcid hst hcty hprem
  unfold normMARow
  dsimp only
  simp only [MARow.mk.injEq, and_true, true_and]
  refine ⟨?_, ?_, ?_, ?_⟩
  · rw [hcid, normContract_idem]
  · rw [hst, strStrip_strStrip]
  · rw [hcty, strStrip_strStrip]
  · exact cleanCurrencyCell_of_clean hprem

lemma cleanMA_pairwise (t : List MARow) :
    (cleanMA t).Pairwise (fun a b => keyLe a.key b.key = true) := by
  have h1 := sortByKey_pairwise MARow.key (t.map normMARow)
  have hkeys : ((sortByKey MARow.key (t.map normMARow)).map MARow.key).Pairwise
      (fun k k' => keyLe k k' = true) := List.pairwise_map.mpr h1
  have h2 : (groupFfillMA (sortByKey MARow.key (t.map normMARow))).Pairwise
      (fun a b => keyLe a.key b.key = true) := by
    rw [← ffillGo_map_key MARow.key MARow.premium (fun r v => { r with premium := v })
      fillCell Cell.na (fun _ _ => rfl) [] _] at hkeys
    rw [groupFfillMA_eq]
    exact List.pairwise_map.mp hkeys
  exact List.Pairwise.sublist (drop_duplicates_sublist MARow.key _) h2

lemma cleanMA_keys_nodup (t : List MARow) : ((cleanMA t).map MARow.key).Nodup :=
  drop_duplicates_keys_nodup MARow.key _

lemma cleanMA_none_na (t : List MARow) :
    ∀ r ∈ cleanMA t, r.planid = none → r.premium = Cell.na := by
  intro r hr
  unfold cleanMA at hr
  have hr1 : r ∈ groupFfillMA (sortByKey MARow.key (t.map normMARow)) :=
    (drop_duplicates_sublist MARow.key _).subset hr
  rw [groupFfillMA_eq] at hr1
  exact ffillGo_none_na MARow.key MARow.premium (fun r v => { r with premium := v })
    fillCell Cell.na (fun _ _ => rfl) (fun _ _ => rfl) [] _ r hr1

lemma cleanMA_idem (t : List MARow) : cleanMA (cleanMA t) = cleanMA t := by
  have hmap : (cleanMA t).map normMARow = cleanMA t :=
    map_id_of_fixed (cleanMA_norm_fixed)
  have hffill : groupFfillMA (cleanMA t) = cleanMA t := by
    rw [groupFfillMA_eq]
    exact ffillGo_eq_self MARow.key MARow.premium (fun r v => { r with premium := v })
      fillCell Cell.na (fun _ => rfl) fillCell_na_left [] _
      (cleanMA_keys_nodup t) (fun _ _ => rfl) (cleanMA_none_na t)
  show drop_duplicates MARow.key
      (groupFfillMA (sortByKey MARow.key ((cleanMA t).map normMARow))) = cleanMA t
  rw [hmap, sortByKey_of_pairwise MARow.key (cleanMA_pairwise t), hffill,
    drop_duplicates_of_nodup MARow.key (cleanMA_keys_nodup t)]

lemma mem_cleanMAPD_shape {t : List MAPDRow} {r : MAPDRow} (hr : r ∈ cleanMAPD t) :
    (∃ r₁ ∈ t, r.contractid = r₁.contractid ∧ r.state = r₁.state
      ∧ r.county = r₁.county ∧ r.planid = r₁.planid)
    ∧ ((r.fills.partc = Cell.na ∨ ∃ d, r.fills.partc = Cell.num d ∧ d.canonical)
      ∧ (r.fills.pdbasic = Cell.na ∨ ∃ d, r.fills.pdbasic = Cell.num d ∧ d.canonical)
      ∧ (r.fills.pdsupp = Cell.na ∨ ∃ d, r.fills.pdsupp = Cell.num d ∧ d.canonical)
      ∧ (r.fills.pdtotal = Cell.na ∨ ∃ d, r.fills.pdtotal = Cell.num d ∧ d.canonical)
      ∧ (r.fills.deduct = Cell.na ∨ ∃ d, r.fills.deduct = Cell.num d ∧ d.canonical)) := by
  unfold cleanMAPD at hr
  have hr1 : r ∈ groupFfillMAPD (sortByKey MAPDRow.key (t.map cleanFillCols)) :=
    (drop_duplicates_sublist MAPDRow.key _).subset hr
  rw [groupFfillMAPD_eq] at hr1
  constructor
  · obtain ⟨r₀, hr₀, v, rfl⟩ := ffillGo_mem MAPDRow.key MAPDRow.fills
      MAPDRow.setFills fillVals FillVals.na [] _ r hr1
    have hr₀' : r₀ ∈ t.map cleanFillCols :=
      (sortByKey_perm MAPDRow.key _).mem_iff.mp hr₀
    obtain ⟨r₁, hr₁, rfl⟩ := List.mem_map.mp hr₀'
    exact ⟨r₁, hr₁, rfl, rfl, rfl, rfl⟩
  · refine ffillGo_vals MAPDRow.key MAPDRow.fills MAPDRow.setFills fillVals FillVals.na
      (fun v => (v.partc = Cell.na ∨ ∃ d, v.partc = Cell.num d ∧ d.canonical)
        ∧ (v.pdbasic = Cell.na ∨ ∃ d, v.pdbasic = Cell.num d ∧ d.canonical)
        ∧ (v.pdsupp = Cell.na ∨ ∃ d, v.pdsupp = Cell.num d ∧ d.canonical)
        ∧ (v.pdtotal = Cell.na ∨ ∃ d, v.pdtotal = Cell.num d ∧ d.canonical)
        ∧ (v.deduct = Cell.na ∨ ∃ d, v.deduct = Cell.num d ∧ d.canonical))
      ⟨Or.inl rfl, Or.inl rfl, Or.inl rfl, Or.inl rfl, Or.inl rfl⟩
      (fun a b ha hb => ⟨premClean_fillCell ha.1 hb.1,
        premClean_fillCell ha.2.1 hb.2.1, premClean_fillCell ha.2.2.1 hb.2.2.1,
        premClean_fillCell ha.2.2.2.1 hb.2.2.2.1,
        premClean_fillCell ha.2.2.2.2 hb.2.2.2.2⟩)
      (fun _ _ => rfl)
      [] _ (by simp) ?_ r hr1
    intro x hx
    have hx' : x ∈ t.map cleanFillCols := (sortByKey_perm MAPDRow.key _).mem_iff.mp hx
    obtain ⟨x₁, _, rfl⟩ := List.mem_map.mp hx'
    exact ⟨cleanCurrencyCell_shape _, cleanCurrencyCell_shape _,
      cleanCurrencyCell_shape _, cleanCurrencyCell_shape _, cleanCurrencyCell_shape _⟩

lemma cleanMAPD_clean_fixed {t : List MAPDRow} : ∀ r ∈ cleanMAPD t, cleanFillCols r = r := by
  intro r hr
  obtain ⟨_, h1, h2, h3, h4, h5⟩ := mem_cleanMAPD_shape hr
  obtain ⟨c, p, s, cty, f1, f2, f3, f4, f5⟩ := r
  dsimp only [MAPDRow.fills] at h1 h2 h3 h4 h5
  unfold cleanFillCols
  dsimp only
  simp only [MAPDRow.mk.injEq, true_and]
  exact ⟨cleanCurrencyCell_of_clean h1, cleanCurrencyCell_of_clean h2,
    cleanCurrencyCell_of_clean h3, cleanCurrencyCell_of_clean h4,
    cleanCurrencyCell_of_clean h5⟩

lemma cleanMAPD_pairwise (t : List MAPDRow) :
    (cleanMAPD t).Pairwise (fun a b => keyLe a.key b.key = true) := by
  have h1 := sortByKey_pairwise MAPDRow.key (t.map cleanFillCols)
  have hkeys : ((sortByKey MAPDRow.key (t.map cleanFillCols)).map MAPDRow.key).Pairwise
      (fun k k' => keyLe k k' = true) := List.pairwise_map.mpr h1
  have h2 : (groupFfillMAPD (sortByKey MAPDRow.key (t.map cleanFillCols))).Pairwise
      (fun a b => keyLe a.key b.key = true) := by
    rw [← ffillGo_map_key MAPDRow.key MAPDRow.fills MAPDRow.setFills
      fillVals FillVals.na (fun _ _ => rfl) [] _] at hkeys
    rw [groupFfillMAPD_eq]
    exact List.pairwise_map.mp hkeys
  exact List.Pairwise.sublist (drop_duplicates_sublist MAPDRow.key _) h2

lemma cleanMAPD_keys_nodup (t : List MAPDRow) : ((cleanMAPD t).map MAPDRow.key).Nodup :=
  drop_duplicates_keys_nodup MAPDRow.key _

lemma cleanMAPD_none_na (t : List MAPDRow) :
    ∀ r ∈ cleanMAPD t, r.planid = none → r.fills = FillVals.na := by
  intro r hr
  unfold cleanMAPD at hr
  have hr1 : r ∈ groupFfillMAPD (sortByKey MAPDRow.key (t.map cleanFillCols)) :=
    (drop_duplicates_sublist MAPDRow.key _).subset hr
  rw [groupFfillMAPD_eq] at hr1
  exact ffillGo_none_na MAPDRow.key MAPDRow.fills MAPDRow.setFills fillVals FillVals.na
    (fun _ _ => rfl) (fun _ _ => rfl) [] _ r hr1

lemma cleanMAPD_idem (t : List MAPDRow) : cleanMAPD (cleanMAPD t) = cleanMAPD t := by
  have hmap : (cleanMAPD t).map cleanFillCols = cleanMAPD t :=
    map_id_of_fixed (cleanMAPD_clean_fixed)
  have hffill : groupFfillMAPD (cleanMAPD t) = cleanMAPD t := by
    rw [groupFfillMAPD_eq]
    exact ffillGo_eq_self MAPDRow.key MAPDRow.fills MAPDRow.setFills fillVals FillVals.na
      (fun _ => rfl) fillVals_na_left [] _
      (cleanMAPD_keys_nodup t) (fun _ _ => rfl) (cleanMAPD_none_na t)
  show drop_duplicates MAPDRow.key
      (groupFfillMAPD (sortByKey MAPDRow.key ((cleanMAPD t).map cleanFillCols))) = cleanMAPD t
  rw [hmap, sortByKey_of_pairwise MAPDRow.key (cleanMAPD_pairwise t), hffill,
    drop_duplicates_of_nodup MAPDRow.key (cleanMAPD_keys_nodup t)]

/-! ## Lemmas: the outer merge -/

lemma combineRow_key (a : MARow) (b : MAPDRow) (y : Int) :
    (combineRow a b y).key = a.key := rfl

lemma leftOnlyRow_key (a : MARow) (y : Int) : (leftOnlyRow a y).key = a.key := rfl

lemma rightOnlyRow_key (b : MAPDRow) (y : Int) : (rightOnlyRow b y).key = b.key := rfl

lemma outerMerge_block_keys (mapd : List MAPDRow) (y : Int) (a : MARow) :
    ∀ r ∈ (match mapd.filter (fun b => decide (b.key = a.key)) with
           | [] => [leftOnlyRow a y]
           | ms => ms.map (fun b => combineRow a b y)),
      r.key = a.key := by
  intro r hr
  cases hfb : mapd.filter (fun b => decide (b.key = a.key)) with
  | nil =>
    rw [hfb] at hr
    rcases List.mem_singleton.mp hr with rfl
    rfl
  | cons m ms' =>
    rw [hfb] at hr
    rcases List.mem_map.mp hr with ⟨b, _, rfl⟩
    rfl

lemma outerMerge_left_filter (ma : List MARow) (mapd : List MAPDRow) (y : Int) (k : Key) :
    ((ma.map (fun a =>
        match mapd.filter (fun b => decide (b.key = a.key)) with
        | [] => [leftOnlyRow a y]
        | ms => ms.map (fun b => combineRow a b y))).flatten).filter
      (fun r => decide (r.key = k))
    = ((ma.filter (fun a => decide (a.key = k))).map (fun a =>
        match mapd.filter (fun b => decide (b.key = a.key)) with
        | [] => [leftOnlyRow a y]
        | ms => ms.map (fun b => combineRow a b y))).flatten := by
  induction ma with
  | nil => rfl
  | cons x xs ih =>
    rw [List.map_cons, List.flatten_cons, List.filter_append, ih, List.filter_cons]
    by_cases hx : x.key = k
    · rw [if_pos (by simpa using hx), List.map_cons, List.flatten_cons]
      congr 1
      apply List.filter_eq_self.mpr
      intro r hr
      simpa using (outerMerge_block_keys mapd y x r hr).trans hx
    · rw [if_neg (by simpa using hx)]
      rw [List.filter_eq_nil_iff.mpr, List.nil_append]
      intro r hr
      simp only [decide_eq_true_eq]
      intro heq
      exact hx (((outerMerge_block_keys mapd y x r hr).symm.trans heq))

lemma filter_length_le_one {α κ : Type} [DecidableEq κ] (key : α → κ) {l : List α} (k : κ)
    (hn : (l.map key).Nodup) :
    (l.filter (fun r => decide (key r = k))).length ≤ 1 := by
  induction l with
  | nil => simp
  | cons x xs ih =>
    rw [List.map_cons, List.nodup_cons] at hn
    rw [List.filter_cons]
    by_cases hx : key x = k
    · rw [if_pos (by simpa using hx)]
      have : xs.filter (fun r => decide (key r = k)) = [] := by
        rw [List.filter_eq_nil_iff]
        intro r hr
        simp only [decide_eq_true_eq]
        intro heq
        exact hn.1 ((hx ▸ heq : key r = key x) ▸ List.mem_map_of_mem key hr)
      rw [this]
      simp
    · rw [if_neg (by simpa using hx)]
      exact ih hn.2

lemma filter_eq_singleton_of_nodup {α κ : Type} [DecidableEq κ] (key : α → κ)
    {l : List α} {k : κ} (hn : (l.map key).Nodup) (hk : k ∈ l.map key) :
    ∃ a, l.filter (fun r => decide (key r = k)) = [a] ∧ key a = k := by
  obtain ⟨a, hfind, hka⟩ := find_of_mem_keys key hk
  refine ⟨a, ?_, hka⟩
  have h1 := filter_take_one_of_find hfind
  rwa [List.take_of_length_le (filter_length_le_one key k hn)] at h1

lemma outerMerge_filter_left_only {ma : List MARow} {mapd : List MAPDRow} {y : Int}
    {k : Key} {a : MARow}
    (hA : ma.filter (fun r => decide (r.key = k)) = [a])
    (hB : mapd.filter (fun b => decide (b.key = k)) = []) :
    (outerMerge ma mapd y).filter (fun r => decide (r.key = k)) = [leftOnlyRow a y] := by
  have hak : a.key = k := by
    have ha : a ∈ ma.filter (fun r => decide (r.key = k)) := by
      rw [hA]
      exact List.mem_singleton.mpr rfl
    simpa using (List.mem_filter.mp ha).2
  unfold outerMerge
  rw [List.filter_append, outerMerge_left_filter, hA]
  rw [List.map_cons, List.map_nil, List.flatten_cons, List.flatten_nil, List.append_nil]
  rw [hak, hB]
  rw [List.filter_map]
  have hright : (mapd.filter
      (fun b => ¬ ma.any (fun a => decide (a.key = b.key)))).filter
      ((fun r : PremiumRow => decide (r.key = k)) ∘ (fun b => rightOnlyRow b y)) = [] := by
    rw [List.filter_eq_nil_iff]
    intro b hb
    simp only [Function.comp, rightOnlyRow_key, decide_eq_true_eq]
    intro heq
    have : b ∈ mapd.filter (fun b => decide (b.key = k)) :=
      List.mem_filter.mpr ⟨(List.mem_filter.mp hb).1, by simpa using heq⟩
    rw [hB] at this
    simp at this
  rw [hright, List.map_nil, List.append_nil]

lemma outerMerge_filter_right_only {ma : List MARow} {mapd : List MAPDRow} {y : Int}
    {k : Key} {b : MAPDRow}
    (hA : ma.filter (fun r => decide (r.key = k)) = [])
    (hB : mapd.filter (fun r => decide (r.key = k)) = [b]) :
    (outerMerge ma mapd y).filter (fun r => decide (r.key = k)) = [rightOnlyRow b y] := by
  have hbk : b.key = k := by
    have hb : b ∈ mapd.filter (fun r => decide (r.key = k)) := by
      rw [hB]
      exact List.mem_singleton.mpr rfl
    simpa using (List.mem_filter.mp hb).2
  unfold outerMerge
  rw [List.filter_append, outerMerge_left_filter, hA, List.map_nil, List.flatten_nil,
    List.nil_append]
  rw [List.filter_map]
  have hcomp : ((fun r : PremiumRow => decide (r.key = k)) ∘ (fun b => rightOnlyRow b y))
      = (fun b : MAPDRow => decide (b.key = k)) := by
    funext b
    simp [Function.comp, rightOnlyRow_key]
  rw [hcomp, List.filter_comm, hB, List.filter_cons]
  rw [if_pos ?hkeep]
  case hkeep =>
    refine decide_eq_true ?_
    intro hany
    rw [List.any_eq_true] at hany
    obtain ⟨x, hx, hxb⟩ := hany
    simp only [decide_eq_true_eq] at hxb
    have : x ∈ ma.filter (fun r => decide (r.key = k)) :=
      List.mem_filter.mpr ⟨hx, by simp [hxb, hbk]⟩
    rw [hA] at this
    simp at this
  rw [List.filter_nil, List.map_cons, List.map_nil]

lemma outerMerge_filter_both {ma : List MARow} {mapd : List MAPDRow} {y : Int}
    {k : Key} {a : MARow} {b : MAPDRow}
    (hA : ma.filter (fun r => decide (r.key = k)) = [a])
    (hB : mapd.filter (fun r => decide (r.key = k)) = [b]) :
    (outerMerge ma mapd y).filter (fun r => decide (r.key = k)) = [combineRow a b y] := by
  have hak : a.key = k := by
    have ha : a ∈ ma.filter (fun r => decide (r.key = k)) := by
      rw [hA]
      exact List.mem_singleton.mpr rfl
    simpa using (List.mem_filter.mp ha).2
  unfold outerMerge
  rw [List.filter_append, outerMerge_left_filter, hA]
  rw [List.map_cons, List.map_nil, List.flatten_cons, List.flatten_nil, List.append_nil]
  rw [hak, hB]
  show List.map (fun b => combineRow a b y) [b] ++ _ = _
  rw [List.map_cons, List.map_nil]
  rw [List.filter_map]
  have hcomp : ((fun r : PremiumRow => decide (r.key = k)) ∘ (fun b => rightOnlyRow b y))
      = (fun b : MAPDRow => decide (b.key = k)) := by
    funext b
    simp [Function.comp, rightOnlyRow_key]
  rw [hcomp, List.filter_comm, hB, List.filter_cons]
  rw [if_neg ?hdrop]
  case hdrop =>
    have ha : a ∈ ma := (List.mem_filter.mp (by rw [hA]; exact List.mem_singleton.mpr rfl)).1
    have hbk : b.key = k := by
      have hb : b ∈ mapd.filter (fun r => decide (r.key = k)) := by
        rw [hB]
        exact List.mem_singleton.mpr rfl
      simpa using (List.mem_filter.mp hb).2
    intro hcond
    have hcond' : ¬ (ma.any (fun x => decide (x.key = b.key)) = true) := of_decide_eq_true hcond
    apply hcond'
    rw [List.any_eq_true]
    exact ⟨a, ha, by simp [hak, hbk]⟩
  rw [List.filter_nil, List.map_nil, List.append_nil]

/-! ## Lemmas: the composite loader -/

lemma load_month_block_length {enroll : List EnrollRow}
    (hkeys : (enroll.map EnrollRow.key).Nodup) (c : ContractRow) (m y : Int) :
    (match enroll.filter (fun e : EnrollRow => decide (e.key = (c.contractid, c.planid))) with
     | [] => [monthRowNoEnroll c m y]
     | ms => ms.map (fun e => monthRowOf c e m y)).length = 1 := by
  cases hf : enroll.filter (fun e : EnrollRow => decide (e.key = (c.contractid, c.planid))) with
  | nil => rfl
  | cons e es =>
    have hle := filter_length_le_one EnrollRow.key (c.contractid, c.planid) hkeys
    rw [hf, List.length_cons] at hle
    have hes : es = [] := List.length_eq_zero.mp (by omega)
    subst hes
    rfl

lemma load_month_length (contract : List ContractRow) (enroll : List EnrollRow) (m y : Int)
    (hkeys : (enroll.map EnrollRow.key).Nodup) :
    (load_month contract enroll m y).length
      = (drop_duplicates (fun c : ContractRow => (c.contractid, c.planid)) contract).length := by
  unfold load_month
  rw [List.length_flatten]
  generalize drop_duplicates (fun c : ContractRow => (c.contractid, c.planid)) contract = dc
  induction dc with
  | nil => rfl
  | cons c cs ih =>
    rw [List.map_cons, List.map_cons, List.sum_cons, ih, List.length_cons]
    rw [load_month_block_length hkeys c m y]
    omega

lemma load_month_no_match_mem {contract : List ContractRow} {enroll : List EnrollRow}
    {m y : Int} {c : ContractRow}
    (hc : c ∈ drop_duplicates (fun c : ContractRow => (c.contractid, c.planid)) contract)
    (hnone : enroll.filter (fun e => decide (e.key = (c.contractid, c.planid))) = []) :
    monthRowNoEnroll c m y ∈ load_month contract enroll m y := by
  unfold load_month
  rw [List.mem_flatten]
  refine ⟨_, List.mem_map_of_mem _ hc, ?_⟩
  show monthRowNoEnroll c m y ∈
    (match enroll.filter (fun e : EnrollRow => decide (e.key = (c.contractid, c.planid))) with
     | [] => [monthRowNoEnroll c m y]
     | ms => ms.map (fun e => monthRowOf c e m y))
  rw [hnone]
  exact List.mem_singleton.mpr rfl

/-! ## Lemmas: singleton tables through the reconciler -/

lemma sortByKey_singleton {β : Type} (key : β → Key) (x : β) : sortByKey key [x] = [x] := rfl

lemma drop_duplicates_singleton {β : Type} (key : β → Key) (x : β) :
    drop_duplicates key [x] = [x] := by
  rw [drop_duplicates, dropDupAux, if_neg (by simp)]
  rfl

lemma groupFfillMA_singleton (x : MARow) :
    ∃ v, groupFfillMA [x] = [{ x with premium := v }] := by
  rw [groupFfillMA_eq, ffillGo]
  split
  · exact ⟨Cell.na, rfl⟩
  · exact ⟨_, rfl⟩

lemma groupFfillMAPD_singleton (x : MAPDRow) :
    ∃ v, groupFfillMAPD [x] = [MAPDRow.setFills x v] := by
  rw [groupFfillMAPD_eq, ffillGo]
  split
  · exact ⟨FillVals.na, rfl⟩
  · exact ⟨_, rfl⟩

lemma normMARow_key (r : MARow) :
    (normMARow r).key
      = (strStrip (strUpper r.contractid), r.planid, strStrip r.state, strStrip r.county) := rfl

lemma cleanMA_singleton_key (r : MARow) :
    ∃ a, cleanMA [r] = [a] ∧ a.key = (normMARow r).key := by
  unfold cleanMA
  rw [show (List.map normMARow [r]) = [normMARow r] from rfl, sortByKey_singleton]
  obtain ⟨v, hv⟩ := groupFfillMA_singleton (normMARow r)
  rw [hv, drop_duplicates_singleton]
  exact ⟨_, rfl, rfl⟩

lemma cleanMAPD_singleton_key (b : MAPDRow) :
    ∃ b', cleanMAPD [b] = [b'] ∧ b'.key = b.key := by
  unfold cleanMAPD
  rw [show (List.map cleanFillCols [b]) = [cleanFillCols b] from rfl, sortByKey_singleton]
  obtain ⟨v, hv⟩ := groupFfillMAPD_singleton (cleanFillCols b)
  rw [hv, drop_duplicates_singleton]
  exact ⟨_, rfl, rfl⟩

lemma outerMerge_length_singleton (a : MARow) (b : MAPDRow) (y : Int) :
    (outerMerge [a] [b] y).length = if b.key = a.key then 1 else 2 := by
  unfold outerMerge
  dsimp only [List.map_cons, List.map_nil, List.flatten_cons, List.flatten_nil]
  rw [List.append_nil, List.length_append]
  by_cases h : b.key = a.key
  · rw [if_pos h]
    rw [show List.filter (fun x : MAPDRow => decide (x.key = a.key)) [b] = [b] from by
      rw [List.filter_cons, if_pos (by simpa using h), List.filter_nil]]
    rw [show List.filter (fun x : MAPDRow => ¬ [a].any (fun a' => decide (a'.key = x.key))) [b]
        = [] from by
      rw [List.filter_cons, if_neg ?_, List.filter_nil]
      intro hcond
      have := of_decide_eq_true hcond
      apply this
      rw [List.any_eq_true]
      exact ⟨a, List.mem_singleton.mpr rfl, by simpa using h.symm⟩]
    rfl
  · rw [if_neg h]
    rw [show List.filter (fun x : MAPDRow => decide (x.key = a.key)) [b] = [] from by
      rw [List.filter_cons, if_neg (by simpa using h), List.filter_nil]]
    rw [show List.filter (fun x : MAPDRow => ¬ [a].any (fun a' => decide (a'.key = x.key))) [b]
        = [b] from by
      rw [List.filter_cons, if_pos ?_, List.filter_nil]
      refine decide_eq_true ?_
      intro hany
      rw [List.any_eq_true] at hany
      obtain ⟨x, hx, hxb⟩ := hany
      rcases List.mem_singleton.mp hx with rfl
      exact h (of_decide_eq_true hxb).symm]
    rfl

lemma dedup_filter_first {α κ : Type} [DecidableEq κ] (key : α → κ) {l : List α} {k : κ}
    (hk : k ∈ l.map key) :
    ∃ a, l.find? (fun r => decide (key r = k)) = some a
      ∧ (drop_duplicates key l).filter (fun r => decide (key r = k)) = [a] := by
  obtain ⟨a, hfind, _⟩ := find_of_mem_keys key hk
  exact ⟨a, hfind, by rw [drop_duplicates_filter, filter_take_one_of_find hfind]⟩

/-! ## The claims -/

/-- C1, as stated, is false: only the MA table's `contractid` is upper-cased
and trimmed; `mapd_clean_merge` never normalizes the MA-PD table's
`contractid`.  Here the MA row has `contractid = "H1"` and the MA-PD row has
`contractid = "h1"` — they differ only in case and agree on every other key
field — yet the outer join produces two rows, not one collided row. -/
theorem C1_counterexample :
    (mapd_clean_merge [⟨"H1", some 1, "S", "C", Cell.na⟩]
      [⟨"h1", some 1, "S", "C", Cell.na, Cell.na, Cell.na, Cell.na, Cell.na⟩] 0).length
      = 2 := by
  decide

/-- C1 (amended): the MA table's `contractid` is upper-cased and
whitespace-trimmed before use as the join key, but the MA-PD table's
`contractid` is used as-is; consequently, for one-row tables agreeing on
`planid`, `state`, `county` (already stripped), the outer join collides the
two rows into one output row exactly when the MA-PD `contractid` equals the
upper-cased trimmed MA `contractid`. -/
theorem C1_amended :
    (∀ (t : List MARow), ∀ r ∈ cleanMA t,
        ∃ r₀ ∈ t, r.contractid = strStrip (strUpper r₀.contractid))
    ∧ (∀ (t : List MAPDRow), ∀ r ∈ cleanMAPD t, ∃ r₀ ∈ t, r.contractid = r₀.contractid)
    ∧ ∀ (c₁ c₂ : String) (p : Option Int) (s cty : String) (prem f₁ f₂ f₃ f₄ f₅ : Cell)
        (y : Int), strStrip s = s → strStrip cty = cty →
        (mapd_clean_merge [⟨c₁, p, s, cty, prem⟩]
            [⟨c₂, p, s, cty, f₁, f₂, f₃, f₄, f₅⟩] y).length
          = if strStrip (strUpper c₁) = c₂ then 1 else 2 := by
  refine ⟨?_, ?_, ?_⟩
  · intro t r hr
    obtain ⟨⟨r₀, hr₀, hcid, _⟩, _⟩ := mem_cleanMA_shape hr
    exact ⟨r₀, hr₀, hcid⟩
  · intro t r hr
    obtain ⟨⟨r₀, hr₀, hcid, _⟩, _⟩ := mem_cleanMAPD_shape hr
    exact ⟨r₀, hr₀, hcid⟩
  · intro c₁ c₂ p s cty prem f₁ f₂ f₃ f₄ f₅ y hs hcty
    obtain ⟨a, ha, hka⟩ := cleanMA_singleton_key ⟨c₁, p, s, cty, prem⟩
    obtain ⟨b, hb, hkb⟩ := cleanMAPD_singleton_key ⟨c₂, p, s, cty, f₁, f₂, f₃, f₄, f₅⟩
    unfold mapd_clean_merge
    rw [ha, hb, outerMerge_length_singleton, hka, hkb, normMARow_key]
    show (if (c₂, p, s, cty)
        = (strStrip (strUpper c₁), p, strStrip s, strStrip cty) then 1 else 2) = _
    rw [hs, hcty]
    by_cases hcc : strStrip (strUpper c₁) = c₂
    · rw [if_pos hcc, if_pos (by rw [hcc])]
    · rw [if_neg hcc, if_neg ?_]
      intro heq
      exact hcc (congrArg Prod.fst heq).symm

/-- C1 witness: instantiating the amended claim.  The membership parts are
applied to a one-row MA table and a one-row MA-PD table; the collision part
is applied at `c₁ = " h1 "`, `c₂ = "H1"`, which do collide (one output row),
discharging the strip-fixedness hypotheses on concrete strings. -/
theorem C1_witness :
    (∃ r₀ ∈ [MARow.mk " h1 " (some 1) "S" "C" Cell.na],
        ∀ r ∈ cleanMA [MARow.mk " h1 " (some 1) "S" "C" Cell.na],
          r.contractid = strStrip (strUpper r₀.contractid))
    ∧ (mapd_clean_merge [⟨" h1 ", some 1, "S", "C", Cell.na⟩]
        [⟨"H1", some 1, "S", "C", Cell.na, Cell.na, Cell.na, Cell.na, Cell.na⟩] 3).length
        = 1 := by
  constructor
  · refine ⟨MARow.mk " h1 " (some 1) "S" "C" Cell.na, by decide, ?_⟩
    intro r hr
    obtain ⟨r₀, hr₀, hcid⟩ := C1_amended.1 _ r hr
    rcases List.mem_singleton.mp hr₀ with rfl
    exact hcid
  · have h := C1_amended.2.2 " h1 " "H1" (some 1) "S" "C" Cell.na Cell.na Cell.na Cell.na
      Cell.na Cell.na 3 (by decide) (by decide)
    rw [h, if_pos (by decide)]

/-- C2: the claim that neither caller-supplied table is mutated is right as
a design requirement, but the code violates it for `mapd_data`: the
`for c in fill_cols` loop reassigns the five premium columns of the caller's
`mapd_data` before the `# Tidy MA-PD data` step rebinds `mapd_data` to a
copy.  After a call with a `"$10"` cell in `premium_partc`, the caller's
table holds the numeric `10.0` instead of the original string. -/
theorem C2_caller_table_mutated :
    mapdArgAfterCall
        [⟨"H1", some 1, "S", "C", Cell.str "$10", Cell.na, Cell.na, Cell.na, Cell.na⟩]
      = [⟨"H1", some 1, "S", "C", Cell.num ⟨10, 0⟩, Cell.na, Cell.na, Cell.na, Cell.na⟩]
    ∧ mapdArgAfterCall
        [⟨"H1", some 1, "S", "C", Cell.str "$10", Cell.na, Cell.na, Cell.na, Cell.na⟩]
      ≠ [⟨"H1", some 1, "S", "C", Cell.str "$10", Cell.na, Cell.na, Cell.na, Cell.na⟩] := by
  exact ⟨by decide, by decide⟩

/-- C3, as stated, is false: `load_month` left-joins the deduplicated
contract table with the enrollment table on `(contractid, planid)`, and a
contract row with several matching enrollment rows (one per county — the
normal shape of the enrollment file) produces one output row per match.
Here one contract row meets two enrollment rows sharing its key, so the
output has two rows while the deduplicated contract count is one. -/
theorem C3_counterexample :
    (load_month
        [⟨"C1", some 1, none, none, none, none, none, none, none, none, none, none⟩]
        [⟨"C1", some 1, none, none, some "S", some "X", none⟩,
         ⟨"C1", some 1, none, none, some "S", some "Y", none⟩] 1 2020).length = 2
    ∧ (drop_duplicates (fun c : ContractRow => (c.contractid, c.planid))
        [⟨"C1", some 1, none, none, none, none, none, none, none, none, none, none⟩]).length
      = 1 := by
  exact ⟨by decide, by decide⟩

/-- C3 (amended): when the enrollment table has at most one row per
`(contractid, planid)` key, the output row count of `load_month` equals the
deduplicated contract-row count; and in any case a deduplicated contract row
with no matching enrollment row is retained as exactly the row whose
geography/enrollment fields are all null. -/
theorem C3_amended (contract : List ContractRow) (enroll : List EnrollRow) (m y : Int)
    (hkeys : (enroll.map EnrollRow.key).Nodup) :
    (load_month contract enroll m y).length
      = (drop_duplicates (fun c : ContractRow => (c.contractid, c.planid)) contract).length
    ∧ ∀ c ∈ drop_duplicates (fun c : ContractRow => (c.contractid, c.planid)) contract,
        enroll.filter (fun e : EnrollRow => decide (e.key = (c.contractid, c.planid))) = [] →
        monthRowNoEnroll c m y ∈ load_month contract enroll m y := by
  exact ⟨load_month_length contract enroll m y hkeys,
    fun c hc hnone => load_month_no_match_mem hc hnone⟩

/-- C3 witness: one contract row and an enrollment table with unique keys
that does not mention the contract: the count matches the deduplicated
contract count and the contract row survives with null enrollment fields. -/
theorem C3_witness :
    (load_month
        [⟨"C1", some 1, none, none, none, none, none, none, none, none, none, none⟩]
        [⟨"C2", some 2, none, none, some "S", some "X", none⟩] 1 2020).length
      = (drop_duplicates (fun c : ContractRow => (c.contractid, c.planid))
          [⟨"C1", some 1, none, none, none, none, none, none, none, none, none, none⟩]).length
    ∧ monthRowNoEnroll
        ⟨"C1", some 1, none, none, none, none, none, none, none, none, none, none⟩ 1 2020
      ∈ load_month
          [⟨"C1", some 1, none, none, none, none, none, none, none, none, none, none⟩]
          [⟨"C2", some 2, none, none, some "S", some "X", none⟩] 1 2020 := by
  have h := C3_amended
    [⟨"C1", some 1, none, none, none, none, none, none, none, none, none, none⟩]
    [⟨"C2", some 2, none, none, some "S", some "X", none⟩] 1 2020 (by decide)
  exact ⟨h.1, h.2 _ (by decide) (by decide)⟩

/-- C4: group-wise forward fill.  The `i`-th row of
`groupby([...])['premium'].ffill()` (for a row whose `planid` is present)
holds the running forward-fill value of the premiums of the rows up to and
including `i` that share its key tuple: its own premium when non-null,
otherwise the nearest preceding non-null premium in its group, otherwise
null — so leading nulls stay null. -/
theorem C4_forward_fill (t : List MARow) (dflt : MARow) (i : Nat) (hi : i < t.length)
    (p : Int) (hp : (t.getD i dflt).planid = some p) :
    ((groupFfillMA t).getD i dflt).premium
      = ffillVal Cell.na (((t.take (i + 1)).filter
          (fun r => decide (r.key = (t.getD i dflt).key))).map MARow.premium) := by
  rw [groupFfillMA_eq]
  exact ffillGo_getD MARow.key MARow.premium (fun r v => { r with premium := v })
    fillCell Cell.na (fun _ _ => rfl) dflt t [] i hi
    (by rw [show (MARow.key (t.getD i dflt)).2.1 = (t.getD i dflt).planid from rfl, hp]; simp)

/-- C4 witness: the specification's example group `[null, 10, null, null, 20]`
(five rows sharing one key tuple, in sorted order): position 3 is filled to
`10`, the nearest preceding non-null value, and evaluating the fill on the
whole table yields `[null, 10, 10, 10, 20]`. -/
theorem C4_witness :
    ((groupFfillMA
        [⟨"A", some 1, "S", "C", Cell.na⟩,
         ⟨"A", some 1, "S", "C", Cell.num ⟨10, 0⟩⟩,
         ⟨"A", some 1, "S", "C", Cell.na⟩,
         ⟨"A", some 1, "S", "C", Cell.na⟩,
         ⟨"A", some 1, "S", "C", Cell.num ⟨20, 0⟩⟩]).getD 3
        ⟨"", none, "", "", Cell.na⟩).premium = Cell.num ⟨10, 0⟩ := by
  rw [C4_forward_fill _ _ 3 (by decide) 1 (by decide)]
  decide

/-- C5: currency cleaning.  The three currency spellings coerce to the same
numeric value `1234.5`; a cell whose stripped residue fails to parse becomes
null (never zero, never an error); every cleaned cell is null or numeric;
the sentinels `"*"` and `""` become null; and the normalization stage is a
per-row map, so no row is dropped by parsing. -/
theorem C5_currency :
    cleanCurrencyCell (Cell.str "$1,234.50") = Cell.num ⟨12345, 1⟩
    ∧ cleanCurrencyCell (Cell.str "1,234.50") = Cell.num ⟨12345, 1⟩
    ∧ cleanCurrencyCell (Cell.str "$1234.50") = Cell.num ⟨12345, 1⟩
    ∧ (Dec.mk 12345 1).toRat = 1234.5
    ∧ (∀ s : String, parseNum (strStrip (stripCurrencyChars s)) = none →
        cleanCurrencyCell (Cell.str s) = Cell.na)
    ∧ (∀ c : Cell, cleanCurrencyCell c = Cell.na ∨ ∃ d, cleanCurrencyCell c = Cell.num d)
    ∧ cleanCurrencyCell (Cell.str "*") = Cell.na
    ∧ cleanCurrencyCell (Cell.str "") = Cell.na
    ∧ (∀ t : List MARow, (t.map normMARow).length = t.length) := by
  refine ⟨by decide, by decide, by decide, ?_, ?_, ?_, by decide, by decide, ?_⟩
  · rw [Dec.toRat]
    norm_num
  · intro s hs
    rw [cleanCurrencyCell_str, hs]
  · intro c
    rcases cleanCurrencyCell_shape c with h | ⟨d, hd, _⟩
    · exact Or.inl h
    · exact Or.inr ⟨d, hd⟩
  · intro t
    exact List.length_map t normMARow

/-- C5 witness: instantiating the unparsable-residue part at the concrete
cell `"N/A"`, whose stripped residue fails numeric parsing. -/
theorem C5_witness : cleanCurrencyCell (Cell.str "N/A") = Cell.na :=
  C5_currency.2.2.2.2.1 "N/A" (by decide)

/-- C6, as stated, is false: `Series.map` with a dict sends every value that
is not a key of the dict to `NaN`, so a token other than `TRUE`/`FALSE` or a
boolean does not pass through unchanged — the lower-case `"true"` becomes
null instead of surviving. -/
theorem C6_counterexample :
    coercePartialCell (Cell.str "true") = Cell.na
    ∧ Cell.na ≠ Cell.str "true" := by
  exact ⟨by decide, by decide⟩

/-- C6 (amended): the literal strings `TRUE`/`FALSE` (case-sensitive) map to
the booleans, already-boolean values pass through unchanged, and every other
value — missing cells, unrecognized strings, numbers — becomes null rather
than raising an error. -/
theorem C6_amended :
    coercePartialCell (Cell.str "TRUE") = Cell.bool true
    ∧ coercePartialCell (Cell.str "FALSE") = Cell.bool false
    ∧ (∀ b, coercePartialCell (Cell.bool b) = Cell.bool b)
    ∧ (∀ s, s ≠ "TRUE" → s ≠ "FALSE" → coercePartialCell (Cell.str s) = Cell.na)
    ∧ coercePartialCell Cell.na = Cell.na
    ∧ (∀ d, coercePartialCell (Cell.num d) = Cell.na)
    ∧ (∀ col, readServiceAreaPartialCol col = col.map coercePartialCell) := by
  refine ⟨rfl, rfl, ?_, ?_, rfl, fun d => rfl, fun col => rfl⟩
  · intro b
    cases b <;> rfl
  · intro s h1 h2
    rw [coercePartialCell, if_neg h1, if_neg h2]

/-- C6 witness: instantiating the unrecognized-token part at `"yes"`. -/
theorem C6_witness : coercePartialCell (Cell.str "yes") = Cell.na :=
  C6_amended.2.2.2.1 "yes" (by decide) (by decide)

/-- C7: the final outer join on the full key tuple.  For any inputs and any
key `k` of the cleaned tables: present only in the cleaned MA (Part-C) table
— exactly one output row, a `leftOnlyRow` (all Part-D columns null); present
only in the cleaned MA-PD table — exactly one output row, a `rightOnlyRow`
(the Part-C `premium` column null); present in both — exactly one combined
row, not two. -/
theorem C7_outer_join (ma : List MARow) (mapd : List MAPDRow) (y : Int) (k : Key) :
    (k ∈ (cleanMA ma).map MARow.key → k ∉ (cleanMAPD mapd).map MAPDRow.key →
      ∃ a, (mapd_clean_merge ma mapd y).filter (fun r => decide (r.key = k))
        = [leftOnlyRow a y])
    ∧ (k ∉ (cleanMA ma).map MARow.key → k ∈ (cleanMAPD mapd).map MAPDRow.key →
      ∃ b, (mapd_clean_merge ma mapd y).filter (fun r => decide (r.key = k))
        = [rightOnlyRow b y])
    ∧ (k ∈ (cleanMA ma).map MARow.key → k ∈ (cleanMAPD mapd).map MAPDRow.key →
      ∃ a b, (mapd_clean_merge ma mapd y).filter (fun r => decide (r.key = k))
        = [combineRow a b y]) := by
  refine ⟨?_, ?_, ?_⟩
  · intro hA hB
    obtain ⟨a, hfA, _⟩ := filter_eq_singleton_of_nodup MARow.key (cleanMA_keys_nodup ma) hA
    have hfB : (cleanMAPD mapd).filter (fun b => decide (b.key = k)) = [] := by
      rw [List.filter_eq_nil_iff]
      intro b hb
      simp only [decide_eq_true_eq]
      intro heq
      exact hB (heq ▸ List.mem_map_of_mem MAPDRow.key hb)
    exact ⟨a, outerMerge_filter_left_only hfA hfB⟩
  · intro hA hB
    obtain ⟨b, hfB, _⟩ := filter_eq_singleton_of_nodup MAPDRow.key (cleanMAPD_keys_nodup mapd) hB
    have hfA : (cleanMA ma).filter (fun a => decide (a.key = k)) = [] := by
      rw [List.filter_eq_nil_iff]
      intro a ha
      simp only [decide_eq_true_eq]
      intro heq
      exact hA (heq ▸ List.mem_map_of_mem MARow.key ha)
    exact ⟨b, outerMerge_filter_right_only hfA hfB⟩
  · intro hA hB
    obtain ⟨a, hfA, _⟩ := filter_eq_singleton_of_nodup MARow.key (cleanMA_keys_nodup ma) hA
    obtain ⟨b, hfB, _⟩ := filter_eq_singleton_of_nodup MAPDRow.key (cleanMAPD_keys_nodup mapd) hB
    exact ⟨a, b, outerMerge_filter_both hfA hfB⟩

/-- C7 witness: a two-row MA table and a two-row MA-PD table sharing one key:
key `("A", 1, "S", "C")` appears only in the MA table, `("B", 1, "S", "C")`
only in the MA-PD table, and `("D", 1, "S", "C")` in both. -/
theorem C7_witness :
    (∃ a, (mapd_clean_merge
        [⟨"A", some 1, "S", "C", Cell.na⟩, ⟨"D", some 1, "S", "C", Cell.na⟩]
        [⟨"B", some 1, "S", "C", Cell.na, Cell.na, Cell.na, Cell.na, Cell.na⟩,
         ⟨"D", some 1, "S", "C", Cell.na, Cell.na, Cell.na, Cell.na, Cell.na⟩] 7).filter
        (fun r => decide (r.key = ("A", some 1, "S", "C"))) = [leftOnlyRow a 7])
    ∧ (∃ b, (mapd_clean_merge
        [⟨"A", some 1, "S", "C", Cell.na⟩, ⟨"D", some 1, "S", "C", Cell.na⟩]
        [⟨"B", some 1, "S", "C", Cell.na, Cell.na, Cell.na, Cell.na, Cell.na⟩,
         ⟨"D", some 1, "S", "C", Cell.na, Cell.na, Cell.na, Cell.na, Cell.na⟩] 7).filter
        (fun r => decide (r.key = ("B", some 1, "S", "C"))) = [rightOnlyRow b 7])
    ∧ (∃ a b, (mapd_clean_merge
        [⟨"A", some 1, "S", "C", Cell.na⟩, ⟨"D", some 1, "S", "C", Cell.na⟩]
        [⟨"B", some 1, "S", "C", Cell.na, Cell.na, Cell.na, Cell.na, Cell.na⟩,
         ⟨"D", some 1, "S", "C", Cell.na, Cell.na, Cell.na, Cell.na, Cell.na⟩] 7).filter
        (fun r => decide (r.key = ("D", some 1, "S", "C"))) = [combineRow a b 7]) :=
  ⟨(C7_outer_join _ _ 7 _).1 (by decide) (by decide),
   (C7_outer_join _ _ 7 _).2.1 (by decide) (by decide),
   (C7_outer_join _ _ 7 _).2.2 (by decide) (by decide)⟩

/-- C8: `drop_duplicates(subset=key, keep='first')` after sorting.  In each
table, for every key present in the sorted table, the deduplicated table
contains exactly one row with that key, and it is the first row of the
sorted table carrying that key (`find?`): a fixed first-wins policy,
regardless of the non-key fields of the discarded later rows. -/
theorem C8_dedup_first_wins (t : List MARow) (u : List MAPDRow) (k : Key) :
    (k ∈ (sortByKey MARow.key t).map MARow.key →
      ∃ a, (sortByKey MARow.key t).find? (fun r => decide (r.key = k)) = some a
        ∧ (drop_duplicates MARow.key (sortByKey MARow.key t)).filter
            (fun r => decide (r.key = k)) = [a])
    ∧ (k ∈ (sortByKey MAPDRow.key u).map MAPDRow.key →
      ∃ b, (sortByKey MAPDRow.key u).find? (fun r => decide (r.key = k)) = some b
        ∧ (drop_duplicates MAPDRow.key (sortByKey MAPDRow.key u)).filter
            (fun r => decide (r.key = k)) = [b]) :=
  ⟨fun h => dedup_filter_first MARow.key h, fun h => dedup_filter_first MAPDRow.key h⟩

/-- C8 witness: two MA rows share the key tuple and differ only in the
non-key `premium` field; the first post-sort row (premium 1) is the one
retained. -/
theorem C8_witness :
    ∃ a, (sortByKey MARow.key
        [⟨"A", some 1, "S", "C", Cell.num ⟨1, 0⟩⟩,
         ⟨"A", some 1, "S", "C", Cell.num ⟨2, 0⟩⟩]).find?
        (fun r => decide (r.key = ("A", some 1, "S", "C"))) = some a
      ∧ (drop_duplicates MARow.key (sortByKey MARow.key
          [⟨"A", some 1, "S", "C", Cell.num ⟨1, 0⟩⟩,
           ⟨"A", some 1, "S", "C", Cell.num ⟨2, 0⟩⟩])).filter
          (fun r => decide (r.key = ("A", some 1, "S", "C"))) = [a] :=
  (C8_dedup_first_wins
    [⟨"A", some 1, "S", "C", Cell.num ⟨1, 0⟩⟩,
     ⟨"A", some 1, "S", "C", Cell.num ⟨2, 0⟩⟩] [] _).1 (by decide)

/-- C9: idempotence on cleaned data.  Tables that are already normalized,
forward-filled and deduplicated by the reconciler's own steps 1–3 (that is,
outputs of `cleanMA`/`cleanMAPD`) are fixed points of those steps, so
running `mapd_clean_merge` on them produces exactly the output — same rows,
same values — of running it once on the original tables. -/
theorem C9_idempotent (ma : List MARow) (mapd : List MAPDRow) (y : Int) :
    mapd_clean_merge (cleanMA ma) (cleanMAPD mapd) y = mapd_clean_merge ma mapd y := by
  unfold mapd_clean_merge
  rw [cleanMA_idem, cleanMAPD_idem]

/-- C10, as stated, is false: the group-wise forward fill is not
output-invisible.  A row whose `planid` is missing is excluded from every
group (`groupby` with the default `dropna=True`), and the group-wise
`ffill` then leaves `NaN` in its fill columns — erasing a premium that the
fill-free pipeline would keep.  Here the single MA row has a null `planid`
and premium `"$5"`: with the fill steps the output premium is null, without
them it is `5`. -/
theorem C10_counterexample :
    mapd_clean_merge [⟨"A", none, "S", "C", Cell.str "$5"⟩] [] 0
      ≠ mapd_clean_merge_nofill [⟨"A", none, "S", "C", Cell.str "$5"⟩] [] 0 := by
  decide

/-- C10 (amended): when every row of both inputs has a non-null `planid`
(so every row belongs to a group), the reconciler's output is identical to
the same pipeline with both group-wise forward-fill steps removed — the
fill never changes a value that survives deduplication, because the first
post-sort row of each group has no preceding same-key row to fill from. -/
theorem C10_amended (ma : List MARow) (mapd : List MAPDRow) (y : Int)
    (hma : ∀ r ∈ ma, r.planid ≠ none) (hmapd : ∀ r ∈ mapd, r.planid ≠ none) :
    mapd_clean_merge ma mapd y = mapd_clean_merge_nofill ma mapd y := by
  unfold mapd_clean_merge mapd_clean_merge_nofill
  have h1 : cleanMA ma = cleanMANoFill ma := by
    unfold cleanMA cleanMANoFill drop_duplicates
    rw [groupFfillMA_eq]
    apply dropDupAux_ffillGo MARow.key MARow.premium (fun r v => { r with premium := v })
      fillCell Cell.na (fun _ _ => rfl) (fun _ => rfl) fillCell_na_left [] []
    · intro r hr
      have hr' : r ∈ ma.map normMARow := (sortByKey_perm MARow.key _).mem_iff.mp hr
      obtain ⟨r₁, hr₁, rfl⟩ := List.mem_map.mp hr'
      exact hma r₁ hr₁
    · intro k _
      rfl
  have h2 : cleanMAPD mapd = cleanMAPDNoFill mapd := by
    unfold cleanMAPD cleanMAPDNoFill drop_duplicates
    rw [groupFfillMAPD_eq]
    apply dropDupAux_ffillGo MAPDRow.key MAPDRow.fills MAPDRow.setFills
      fillVals FillVals.na (fun _ _ => rfl) (fun _ => rfl) fillVals_na_left [] []
    · intro r hr
      have hr' : r ∈ mapd.map cleanFillCols := (sortByKey_perm MAPDRow.key _).mem_iff.mp hr
      obtain ⟨r₁, hr₁, rfl⟩ := List.mem_map.mp hr'
      exact hmapd r₁ hr₁
    · intro k _
      rfl
  rw [h1, h2]

/-- C10 witness: on a table whose rows all carry a `planid`, the pipeline
with and without the fill steps agree. -/
theorem C10_witness :
    mapd_clean_merge
        [⟨"A", some 1, "S", "C", Cell.na⟩, ⟨"A", some 1, "S", "C", Cell.str "$7"⟩]
        [⟨"A", some 1, "S", "C", Cell.str "$2", Cell.na, Cell.na, Cell.na, Cell.na⟩] 4
      = mapd_clean_merge_nofill
        [⟨"A", some 1, "S", "C", Cell.na⟩, ⟨"A", some 1, "S", "C", Cell.str "$7"⟩]
        [⟨"A", some 1, "S", "C", Cell.str "$2", Cell.na, Cell.na, Cell.na, Cell.na⟩] 4 :=
  C10_amended _ _ 4 (by decide) (by decide)

end MAData
